import Mathlib

/-!
Verification of the Othello game engine (bitboard state, legal-move
enumeration, move application, negamax search with alpha-beta pruning,
Monte-Carlo tree search) against its natural-language specification.

The Python sources are shallowly embedded: the two 64-bit piece bitmaps
become natural numbers, Python `int` bit operations become the
corresponding `Nat` operations, the bounded `while` loops that scan a
board direction become fuel-based recursion (a ray on an 8x8 board has
at most 8 cells, so fuel 8 makes the recursion agree with the loop on
every input it is ever run on), and functions that can raise become
`Except`-valued.  Floating point scores are modelled as exact rationals
extended with the two infinities actually used by the search
(`float('-inf')`, `float('inf')`).
-/

/-- `Player` from board_state.py. -/
inductive Player where
  | black : Player
  | white : Player
deriving DecidableEq, Repr

/-- `BoardState` from board_state.py.  The `user` and `session_id`
fields are opaque metadata copied verbatim by every transition and
never read by rules, evaluation or search, so they are omitted from the
embedding. -/
structure BoardState where
  black : Nat
  white : Nat
  next_player : Player
deriving DecidableEq, Repr

/-- The canonical starting position from board_state.py
(`DEFAULT_BLACK`, `DEFAULT_WHITE`, black to move). -/
def start_state : BoardState :=
  { black := (1 <<< 28) ||| (1 <<< 35)
  , white := (1 <<< 27) ||| (1 <<< 36)
  , next_player := Player.black }

/-- `_toggle_player` from make_move.py. -/
def toggle_player : Player → Player
  | Player.black => Player.white
  | Player.white => Player.black

/-- Python's bit test `mask & (1 << pos) != 0`. -/
def hasBit (mask pos : Nat) : Bool :=
  mask &&& (1 <<< pos) != 0

/-- Python's `a & ~b` on arbitrary-precision ints, expressed without a
complement: bit `i` of the result is `a.testBit i && !(b.testBit i)`.
`a ^^^ (a &&& b)` computes exactly that. -/
def andNot (a b : Nat) : Nat :=
  a ^^^ (a &&& b)

theorem hasBit_eq_testBit (m p : Nat) : hasBit m p = m.testBit p := by
  unfold hasBit
  rcases h : m.testBit p with _ | _
  · have : m &&& (1 <<< p) = 0 := by
      apply Nat.eq_of_testBit_eq
      intro i
      simp only [Nat.testBit_land, Nat.one_shiftLeft, Nat.testBit_two_pow, Nat.zero_testBit]
      rcases eq_or_ne p i with rfl | hne
      · simp [h]
      · simp [hne]
    simp [this]
  · have : (m &&& (1 <<< p)).testBit p = true := by
      simp [Nat.testBit_land, Nat.one_shiftLeft, Nat.testBit_two_pow, h]
    have hne : m &&& (1 <<< p) ≠ 0 := by
      intro h0
      rw [h0] at this
      simp [Nat.zero_testBit] at this
    simp [hne]

theorem testBit_andNot (a b i : Nat) :
    (andNot a b).testBit i = (a.testBit i && !(b.testBit i)) := by
  unfold andNot
  rw [Nat.testBit_xor, Nat.testBit_land]
  rcases a.testBit i with _ | _ <;> rcases b.testBit i with _ | _ <;> rfl

/-! ## legal_moves.py -/

/-- The 8 scan directions (N, NE, E, SE, S, SW, W, NW) from
legal_moves.py / make_move.py. -/
def directions : List (Int × Int) :=
  [(-1, 0), (-1, 1), (0, 1), (1, 1), (1, 0), (1, -1), (0, -1), (-1, -1)]

/-- One cell `(r, c)` is on the 8x8 board. -/
def onBoard (r c : Int) : Prop :=
  0 ≤ r ∧ r < 8 ∧ 0 ≤ c ∧ c < 8

instance (r c : Int) : Decidable (onBoard r c) := by
  unfold onBoard
  infer_instance

/-- Square index of a cell, `pos = r * 8 + c`. -/
def cellIdx (r c : Int) : Nat :=
  (r * 8 + c).toNat

/-- The `while` loop of `check_direction` in legal_moves.py, with the
running cell `(r, c)` and the `found_opponent` flag as arguments.  The
loop visits at most 7 in-bounds cells, so with fuel 8 the fuel never
runs out while the cell is still on the board. -/
def check_direction_loop (fuel : Nat) (r c dr dc : Int)
    (player_pieces opponent_pieces : Nat) (found_opponent : Bool) : Bool :=
  match fuel with
  | 0 => false
  | fuel + 1 =>
    if onBoard r c then
      let pos := cellIdx r c
      if hasBit opponent_pieces pos then
        check_direction_loop fuel (r + dr) (c + dc) dr dc player_pieces opponent_pieces true
      else if hasBit player_pieces pos then
        found_opponent
      else
        false
    else
      false

/-- `check_direction` from legal_moves.py. -/
def check_direction (row col dr dc : Int) (player_pieces opponent_pieces : Nat) : Bool :=
  check_direction_loop 8 (row + dr) (col + dc) dr dc player_pieces opponent_pieces false

/-- `is_legal_move` from legal_moves.py. -/
def is_legal_move (position : Nat) (player_pieces opponent_pieces : Nat) : Bool :=
  let row : Int := (position : Int) / 8
  let col : Int := (position : Int) % 8
  directions.any fun d => check_direction row col d.1 d.2 player_pieces opponent_pieces

/-- `get_legal_moves` from legal_moves.py.  The Python loop skips
positions whose bit is unset in `empty_squares = ~occupied & mask64`;
for positions `0..63` that bit test is exactly `!hasBit occupied pos`. -/
def get_legal_moves (board_state : BoardState) : List Nat :=
  let player_pieces :=
    if board_state.next_player = Player.black then board_state.black else board_state.white
  let opponent_pieces :=
    if board_state.next_player = Player.black then board_state.white else board_state.black
  let occupied := player_pieces ||| opponent_pieces
  (List.range 64).filter fun position =>
    !hasBit occupied position && is_legal_move position player_pieces opponent_pieces

/-! ## make_move.py -/

/-- The `while` loop of `_flips_in_direction` in make_move.py, with the
accumulated `path` of visited opponent squares as an argument. -/
def flips_in_direction_loop (fuel : Nat) (r c dr dc : Int)
    (player_pieces opponent_pieces : Nat) (path : List Nat) : Nat :=
  match fuel with
  | 0 => 0
  | fuel + 1 =>
    if onBoard r c then
      let pos := cellIdx r c
      if hasBit opponent_pieces pos then
        flips_in_direction_loop fuel (r + dr) (c + dc) dr dc player_pieces opponent_pieces
          (path ++ [pos])
      else if hasBit player_pieces pos then
        if path ≠ [] then path.foldl (fun flips p => flips ||| (1 <<< p)) 0 else 0
      else
        0
    else
      0

/-- `_flips_in_direction` from make_move.py. -/
def flips_in_direction (row col dr dc : Int) (player_pieces opponent_pieces : Nat) : Nat :=
  flips_in_direction_loop 8 (row + dr) (col + dc) dr dc player_pieces opponent_pieces []

/-- `_get_flips_mask` from make_move.py. -/
def get_flips_mask (position : Nat) (player_pieces opponent_pieces : Nat) : Nat :=
  let row : Int := (position : Int) / 8
  let col : Int := (position : Int) % 8
  directions.foldl
    (fun flips d => flips ||| flips_in_direction row col d.1 d.2 player_pieces opponent_pieces) 0

/-- The pass branch of `make_move` (move `None`): both masks unchanged,
`next_player` toggled. -/
def pass_move (board_state : BoardState) : BoardState :=
  { black := board_state.black
  , white := board_state.white
  , next_player := toggle_player board_state.next_player }

/-- The state constructed by `make_move` for a legal square `move`. -/
def apply_move (move : Nat) (board_state : BoardState) : BoardState :=
  let player_pieces :=
    if board_state.next_player = Player.black then board_state.black else board_state.white
  let opponent_pieces :=
    if board_state.next_player = Player.black then board_state.white else board_state.black
  let flips_mask := get_flips_mask move player_pieces opponent_pieces
  let move_mask := 1 <<< move
  let new_player_pieces := player_pieces ||| flips_mask ||| move_mask
  let new_opponent_pieces := andNot opponent_pieces flips_mask
  if board_state.next_player = Player.black then
    { black := new_player_pieces
    , white := new_opponent_pieces
    , next_player := toggle_player board_state.next_player }
  else
    { black := new_opponent_pieces
    , white := new_player_pieces
    , next_player := toggle_player board_state.next_player }

instance {ε α : Type} [DecidableEq ε] [DecidableEq α] : DecidableEq (Except ε α) := fun a b =>
  match a, b with
  | Except.ok x, Except.ok y => decidable_of_iff (x = y) (by simp)
  | Except.error x, Except.error y => decidable_of_iff (x = y) (by simp)
  | Except.ok _, Except.error _ => isFalse (by simp)
  | Except.error _, Except.ok _ => isFalse (by simp)

/-- `make_move` from make_move.py.  A raised `ValueError` becomes an
`Except.error`; `move` is an `Int` so the `move < 0` arm of the range
check is meaningful. -/
def make_move (move : Option Int) (board_state : BoardState) : Except String BoardState :=
  match move with
  | none => Except.ok (pass_move board_state)
  | some move =>
    if move < 0 || move > 63 then
      Except.error "move must be an integer in the range 0-63"
    else
      let m := move.toNat
      if (get_legal_moves board_state).contains m then
        Except.ok (apply_move m board_state)
      else
        Except.error "illegal move"

/-! ## Masks of the mover and the opponent -/

/-- The bitmask of the player about to move. -/
def mover_mask (s : BoardState) : Nat :=
  if s.next_player = Player.black then s.black else s.white

/-- The bitmask of the player not about to move. -/
def opponent_mask (s : BoardState) : Nat :=
  if s.next_player = Player.black then s.white else s.black

/-! ## Spec-side description of legality (for the refinement claim on
`get_legal_moves`) -/

/-- Spec-side capture predicate, following the spec text: from the
candidate square, a direction contributes a capture iff the scan
"passes over one or more contiguous opponent squares and then
terminates on a square holding the mover's own piece before running
off the board edge".  Cell `i` of the scan is
`(row + i*dr, col + i*dc)`; cells `1..k` hold opponent pieces and cell
`k+1` holds the mover's piece, all on the board. -/
def spec_capture (row col dr dc : Int) (player_pieces opponent_pieces : Nat) : Prop :=
  ∃ k : Nat, 1 ≤ k ∧
    (∀ i : Nat, 1 ≤ i → i ≤ k →
      onBoard (row + i * dr) (col + i * dc) ∧
      opponent_pieces.testBit (cellIdx (row + i * dr) (col + i * dc)) = true) ∧
    onBoard (row + (k + 1) * dr) (col + (k + 1) * dc) ∧
    player_pieces.testBit (cellIdx (row + (k + 1) * dr) (col + (k + 1) * dc)) = true

/-- Spec-side legality of a square, following the spec text: "A square
is legal iff it is empty on the current board AND at least one of the
8 directions yields a non-empty capture." -/
def spec_legal_square (s : BoardState) (p : Nat) : Prop :=
  p < 64 ∧ s.black.testBit p = false ∧ s.white.testBit p = false ∧
  ∃ d ∈ directions,
    spec_capture ((p : Int) / 8) ((p : Int) % 8) d.1 d.2 (mover_mask s) (opponent_mask s)

theorem testBit_eq_false_of_disjoint {a b : Nat} (h : a &&& b = 0) {i : Nat}
    (ha : a.testBit i = true) : b.testBit i = false := by
  by_contra hb
  have hb' : b.testBit i = true := by
    rcases hx : b.testBit i with _ | _
    · exact absurd hx hb
    · rfl
  have : (a &&& b).testBit i = true := by
    simp [Nat.testBit_land, ha, hb']
  rw [h, Nat.zero_testBit] at this
  exact Bool.false_ne_true this

/-- Exact Boolean characterization of the direction-scan loop: it
returns `true` iff some cell `j` of the scan is the first
non-opponent cell, lies on the board, holds the mover's piece, and at
least one opponent cell was crossed (or the flag was already set). -/
theorem check_direction_loop_iff (dr dc : Int) (P O : Nat) :
    ∀ (fuel : Nat) (r c : Int) (found : Bool),
    check_direction_loop fuel r c dr dc P O found = true ↔
    ∃ j : Nat, j < fuel ∧
      (∀ i : Nat, i < j →
        onBoard (r + i * dr) (c + i * dc) ∧
        O.testBit (cellIdx (r + i * dr) (c + i * dc)) = true) ∧
      onBoard (r + j * dr) (c + j * dc) ∧
      O.testBit (cellIdx (r + j * dr) (c + j * dc)) = false ∧
      P.testBit (cellIdx (r + j * dr) (c + j * dc)) = true ∧
      (found = true ∨ 1 ≤ j) := by
  intro fuel
  induction fuel with
  | zero =>
    intro r c found
    simp [check_direction_loop]
  | succ fuel ih =>
    intro r c found
    rw [check_direction_loop]
    by_cases hob : onBoard r c
    · simp only [hob, if_true, hasBit_eq_testBit]
      rcases hO : O.testBit (cellIdx r c) with _ | _
      · -- current cell is not an opponent cell
        simp only [Bool.false_eq_true, if_false]
        rcases hP : P.testBit (cellIdx r c) with _ | _
        · -- empty cell: the loop returns false and no witness exists
          simp only [Bool.false_eq_true, if_false]
          constructor
          · intro h
            exact absurd h (by simp)
          · rintro ⟨j, -, hpre, hb, hOj, hPj, -⟩
            rcases Nat.eq_zero_or_pos j with rfl | hj
            · simp only [Nat.cast_zero, zero_mul, add_zero] at hPj
              rw [hP] at hPj
              exact Bool.false_ne_true hPj
            · have := (hpre 0 hj).2
              simp only [Nat.cast_zero, zero_mul, add_zero] at this
              rw [hO] at this
              exact Bool.false_ne_true this
        · -- the mover's piece: loop returns `found`
          simp only [if_true]
          constructor
          · intro hfound
            refine ⟨0, Nat.succ_pos _, ?_, ?_, ?_, ?_, Or.inl hfound⟩
            · intro i hi
              exact absurd hi (Nat.not_lt_zero i)
            · simpa using hob
            · simpa using hO
            · simpa using hP
          · rintro ⟨j, -, hpre, hb, hOj, hPj, hflag⟩
            rcases Nat.eq_zero_or_pos j with rfl | hj
            · rcases hflag with hflag | hflag
              · exact hflag
              · exact absurd hflag (by omega)
            · have := (hpre 0 hj).2
              simp only [Nat.cast_zero, zero_mul, add_zero] at this
              rw [hO] at this
              exact absurd this Bool.false_ne_true
      · -- opponent cell: advance with the flag set
        simp only [if_true]
        rw [ih (r + dr) (c + dc) true]
        constructor
        · rintro ⟨j, hj, hpre, hb, hOj, hPj, -⟩
          refine ⟨j + 1, by omega, ?_, ?_, ?_, ?_, Or.inr (by omega)⟩
          · intro i hi
            rcases Nat.eq_zero_or_pos i with rfl | hipos
            · constructor
              · simpa using hob
              · simpa using hO
            · obtain ⟨i', rfl⟩ := Nat.exists_eq_add_of_le hipos
              have := hpre i' (by omega)
              have harith : r + dr + (i' : Int) * dr = r + ((1 + i' : Nat) : Int) * dr ∧
                  c + dc + (i' : Int) * dc = c + ((1 + i' : Nat) : Int) * dc := by
                constructor <;> · push_cast; ring
              rw [harith.1, harith.2] at this
              exact this
          · have harith : r + dr + (j : Int) * dr = r + ((j + 1 : Nat) : Int) * dr ∧
                c + dc + (j : Int) * dc = c + ((j + 1 : Nat) : Int) * dc := by
              constructor <;> · push_cast; ring
            rw [harith.1, harith.2] at hb
            exact hb
          · have harith : r + dr + (j : Int) * dr = r + ((j + 1 : Nat) : Int) * dr ∧
                c + dc + (j : Int) * dc = c + ((j + 1 : Nat) : Int) * dc := by
              constructor <;> · push_cast; ring
            rw [harith.1, harith.2] at hOj
            exact hOj
          · have harith : r + dr + (j : Int) * dr = r + ((j + 1 : Nat) : Int) * dr ∧
                c + dc + (j : Int) * dc = c + ((j + 1 : Nat) : Int) * dc := by
              constructor <;> · push_cast; ring
            rw [harith.1, harith.2] at hPj
            exact hPj
        · rintro ⟨j, hj, hpre, hb, hOj, hPj, -⟩
          rcases Nat.eq_zero_or_pos j with rfl | hjpos
          · simp only [Nat.cast_zero, zero_mul, add_zero] at hOj
            rw [hO] at hOj
            exact absurd hOj (by decide)
          · obtain ⟨j', rfl⟩ := Nat.exists_eq_add_of_le hjpos
            refine ⟨j', by omega, ?_, ?_, ?_, ?_, Or.inl rfl⟩
            · intro i hi
              have := hpre (1 + i) (by omega)
              have harith : r + ((1 + i : Nat) : Int) * dr = r + dr + (i : Int) * dr ∧
                  c + ((1 + i : Nat) : Int) * dc = c + dc + (i : Int) * dc := by
                constructor <;> · push_cast; ring
              rw [harith.1, harith.2] at this
              exact this
            · have harith : r + ((1 + j' : Nat) : Int) * dr = r + dr + (j' : Int) * dr ∧
                  c + ((1 + j' : Nat) : Int) * dc = c + dc + (j' : Int) * dc := by
                constructor <;> · push_cast; ring
              rw [harith.1, harith.2] at hb
              exact hb
            · have harith : r + ((1 + j' : Nat) : Int) * dr = r + dr + (j' : Int) * dr ∧
                  c + ((1 + j' : Nat) : Int) * dc = c + dc + (j' : Int) * dc := by
                constructor <;> · push_cast; ring
              rw [harith.1, harith.2] at hOj
              exact hOj
            · have harith : r + ((1 + j' : Nat) : Int) * dr = r + dr + (j' : Int) * dr ∧
                  c + ((1 + j' : Nat) : Int) * dc = c + dc + (j' : Int) * dc := by
                constructor <;> · push_cast; ring
              rw [harith.1, harith.2] at hPj
              exact hPj
    · simp only [hob, if_false]
      constructor
      · intro h
        exact absurd h (by simp)
      · rintro ⟨j, -, hpre, hb, -, -, -⟩
        rcases Nat.eq_zero_or_pos j with rfl | hj
        · simp only [Nat.cast_zero, zero_mul, add_zero] at hb
          exact (hob hb).elim
        · have := (hpre 0 hj).1
          simp only [Nat.cast_zero, zero_mul, add_zero] at this
          exact (hob this).elim

theorem get_legal_moves_eq (s : BoardState) :
    get_legal_moves s = (List.range 64).filter fun position =>
      !hasBit (mover_mask s ||| opponent_mask s) position &&
      is_legal_move position (mover_mask s) (opponent_mask s) := rfl

/-- `check_direction` agrees with the spec's description of a capture,
on any position inside the board and any pair of disjoint masks. -/
theorem check_direction_iff_spec (row col dr dc : Int) (P O : Nat)
    (hd : (dr, dc) ∈ directions) (hrow0 : 0 ≤ row) (hrow8 : row < 8)
    (hcol0 : 0 ≤ col) (hcol8 : col < 8) (hdisj : P &&& O = 0) :
    check_direction row col dr dc P O = true ↔ spec_capture row col dr dc P O := by
  have harithr : ∀ i : Nat, row + dr + (i : Int) * dr = row + ((i + 1 : Nat) : Int) * dr := by
    intro i; push_cast; ring
  have harithc : ∀ i : Nat, col + dc + (i : Int) * dc = col + ((i + 1 : Nat) : Int) * dc := by
    intro i; push_cast; ring
  unfold check_direction
  rw [check_direction_loop_iff]
  constructor
  · rintro ⟨j, -, hpre, hb, -, hPj, hflag⟩
    have hj1 : 1 ≤ j := by
      rcases hflag with hflag | hflag
      · exact absurd hflag (by decide)
      · exact hflag
    refine ⟨j, hj1, ?_, ?_, ?_⟩
    · intro i h1i hik
      have := hpre (i - 1) (by omega)
      rw [harithr, harithc] at this
      have hi : i - 1 + 1 = i := by omega
      rw [hi] at this
      exact this
    · rw [harithr, harithc] at hb
      exact hb
    · rw [harithr, harithc] at hPj
      exact hPj
  · rintro ⟨k, hk1, hcells, hb, hP⟩
    have hk8 : k < 8 := by
      fin_cases hd <;>
        · obtain ⟨h1, h2, h3, h4⟩ := hb
          push_cast at h1 h2 h3 h4
          omega
    refine ⟨k, hk8, ?_, ?_, ?_, ?_, Or.inr hk1⟩
    · intro i hik
      have := hcells (i + 1) (by omega) (by omega)
      rw [harithr, harithc]
      exact this
    · rw [harithr, harithc]
      exact hb
    · rw [harithr, harithc]
      exact testBit_eq_false_of_disjoint hdisj hP
    · rw [harithr, harithc]
      exact hP

theorem mover_disjoint (s : BoardState) (h : s.black &&& s.white = 0) :
    mover_mask s &&& opponent_mask s = 0 := by
  unfold mover_mask opponent_mask
  cases s.next_player <;> simp_all [Nat.land_comm]

/-- C1: on a board whose masks satisfy the data-model invariant
(`black AND white == 0`), `get_legal_moves` returns exactly the squares
described by the spec: empty squares from which some direction scans
over one or more contiguous opponent squares and terminates on the
mover's own piece before the edge. -/
theorem legal_moves_match_spec (s : BoardState) (h : s.black &&& s.white = 0) (p : Nat) :
    p ∈ get_legal_moves s ↔ spec_legal_square s p := by
  rw [get_legal_moves_eq, List.mem_filter, List.mem_range]
  unfold spec_legal_square
  constructor
  · rintro ⟨hp64, hcond⟩
    rw [Bool.and_eq_true] at hcond
    obtain ⟨hempty, hlegal⟩ := hcond
    rw [Bool.not_eq_eq_eq_not, Bool.not_true, hasBit_eq_testBit, Nat.testBit_lor,
      Bool.or_eq_false_iff] at hempty
    obtain ⟨hbm, hwm⟩ : s.black.testBit p = false ∧ s.white.testBit p = false := by
      revert hempty
      unfold mover_mask opponent_mask
      cases s.next_player <;> simp <;> exact fun a b => ⟨b, a⟩
    refine ⟨hp64, hbm, hwm, ?_⟩
    unfold is_legal_move at hlegal
    rw [List.any_eq_true] at hlegal
    obtain ⟨d, hdmem, hcheck⟩ := hlegal
    refine ⟨d, hdmem, ?_⟩
    rw [← check_direction_iff_spec ((p : Int) / 8) ((p : Int) % 8) d.1 d.2 _ _
      (by simpa using hdmem) (by omega) (by omega) (by omega) (by omega)
      (mover_disjoint s h)]
    exact hcheck
  · rintro ⟨hp64, hbm, hwm, d, hdmem, hcap⟩
    refine ⟨hp64, ?_⟩
    rw [Bool.and_eq_true]
    constructor
    · rw [Bool.not_eq_eq_eq_not, Bool.not_true, hasBit_eq_testBit, Nat.testBit_lor,
        Bool.or_eq_false_iff]
      unfold mover_mask opponent_mask
      cases s.next_player <;> simp [hbm, hwm]
    · unfold is_legal_move
      rw [List.any_eq_true]
      refine ⟨d, hdmem, ?_⟩
      rw [check_direction_iff_spec ((p : Int) / 8) ((p : Int) % 8) d.1 d.2 _ _
        (by simpa using hdmem) (by omega) (by omega) (by omega) (by omega)
        (mover_disjoint s h)]
      exact hcap

/-- Witness for `legal_moves_match_spec` at the starting position. -/
theorem legal_moves_match_spec_witness :
    start_state.black &&& start_state.white = 0 ∧
    (19 ∈ get_legal_moves start_state ↔ spec_legal_square start_state 19) :=
  ⟨by decide, legal_moves_match_spec start_state (by decide) 19⟩

/-! ## Facts about the flip mask and `apply_move` -/

/-- The mask belonging to a given color. -/
def mask_of (p : Player) (s : BoardState) : Nat :=
  match p with
  | Player.black => s.black
  | Player.white => s.white

theorem testBit_foldl_or {path : List Nat} {a : Nat} {i : Nat} :
    (path.foldl (fun flips p => flips ||| (1 <<< p)) a).testBit i =
    (a.testBit i || path.any fun p => p = i) := by
  induction path generalizing a with
  | nil => simp
  | cons q rest ih =>
    rw [List.foldl_cons, ih]
    simp only [List.any_cons, Nat.testBit_lor, Nat.one_shiftLeft, Nat.testBit_two_pow]
    rcases a.testBit i with _ | _ <;> simp [Bool.or_assoc]

/-- Every bit set by the direction-scan flip loop is a bit of the
opponent mask (the loop only records squares it saw opponent pieces
on). -/
theorem flips_in_direction_loop_subset (dr dc : Int) (P O : Nat) :
    ∀ (fuel : Nat) (r c : Int) (path : List Nat),
      (∀ q ∈ path, O.testBit q = true) →
      ∀ i : Nat, (flips_in_direction_loop fuel r c dr dc P O path).testBit i = true →
        O.testBit i = true := by
  intro fuel
  induction fuel with
  | zero =>
    intro r c path hpath i hi
    rw [flips_in_direction_loop, Nat.zero_testBit] at hi
    exact absurd hi (by decide)
  | succ fuel ih =>
    intro r c path hpath i hi
    rw [flips_in_direction_loop] at hi
    by_cases hob : onBoard r c
    · simp only [hob, if_true] at hi
      by_cases hO : hasBit O (cellIdx r c) = true
      · rw [if_pos hO] at hi
        refine ih (r + dr) (c + dc) (path ++ [cellIdx r c]) ?_ i hi
        intro q hq
        rcases List.mem_append.mp hq with hq | hq
        · exact hpath q hq
        · rw [List.mem_singleton.mp hq, ← hasBit_eq_testBit]
          exact hO
      · rw [if_neg hO] at hi
        by_cases hP : hasBit P (cellIdx r c) = true
        · rw [if_pos hP] at hi
          by_cases hpe : path ≠ []
          · rw [if_pos hpe, testBit_foldl_or] at hi
            rw [Nat.zero_testBit, Bool.false_or, List.any_eq_true] at hi
            obtain ⟨q, hq, hqi⟩ := hi
            rw [← (by simpa using hqi : q = i)]
            exact hpath q hq
          · rw [if_neg hpe, Nat.zero_testBit] at hi
            exact absurd hi (by decide)
        · rw [if_neg hP, Nat.zero_testBit] at hi
          exact absurd hi (by decide)
    · rw [if_neg hob, Nat.zero_testBit] at hi
      exact absurd hi (by decide)

/-- Every bit of the full flip mask is a bit of the opponent mask. -/
theorem get_flips_mask_subset (m : Nat) (P O : Nat) :
    ∀ i : Nat, (get_flips_mask m P O).testBit i = true → O.testBit i = true := by
  unfold get_flips_mask
  have hgen : ∀ (l : List (Int × Int)) (acc : Nat),
      (∀ i : Nat, acc.testBit i = true → O.testBit i = true) →
      ∀ i : Nat,
        (l.foldl (fun flips d =>
          flips ||| flips_in_direction ((m : Int) / 8) ((m : Int) % 8) d.1 d.2 P O) acc).testBit i
          = true →
        O.testBit i = true := by
    intro l
    induction l with
    | nil => intro acc hacc i hi; exact hacc i hi
    | cons d rest ih =>
      intro acc hacc i hi
      rw [List.foldl_cons] at hi
      refine ih _ ?_ i hi
      intro j hj
      rw [Nat.testBit_lor, Bool.or_eq_true] at hj
      rcases hj with hj | hj
      · exact hacc j hj
      · exact flips_in_direction_loop_subset d.1 d.2 P O 8 _ _ [] (by simp) j hj
  intro i hi
  refine hgen directions 0 ?_ i hi
  intro j hj
  rw [Nat.zero_testBit] at hj
  exact absurd hj (by decide)

/-- Membership in `get_legal_moves` forces the square to be in range
and empty. -/
theorem mem_legal_moves_elim {s : BoardState} {m : Nat} (hm : m ∈ get_legal_moves s) :
    m < 64 ∧ (mover_mask s).testBit m = false ∧ (opponent_mask s).testBit m = false := by
  rw [get_legal_moves_eq, List.mem_filter, List.mem_range] at hm
  obtain ⟨h64, hcond⟩ := hm
  rw [Bool.and_eq_true, Bool.not_eq_eq_eq_not, Bool.not_true, hasBit_eq_testBit,
    Nat.testBit_lor, Bool.or_eq_false_iff] at hcond
  exact ⟨h64, hcond.1.1, hcond.1.2⟩

theorem apply_move_next_player (m : Nat) (s : BoardState) :
    (apply_move m s).next_player = toggle_player s.next_player := by
  unfold apply_move
  cases hp : s.next_player <;> simp [hp]

theorem apply_move_mover (m : Nat) (s : BoardState) :
    mask_of s.next_player (apply_move m s) =
      mover_mask s ||| get_flips_mask m (mover_mask s) (opponent_mask s) ||| (1 <<< m) := by
  unfold apply_move mask_of mover_mask opponent_mask
  cases hp : s.next_player <;> simp [hp]

theorem apply_move_opponent (m : Nat) (s : BoardState) :
    mask_of (toggle_player s.next_player) (apply_move m s) =
      andNot (opponent_mask s) (get_flips_mask m (mover_mask s) (opponent_mask s)) := by
  unfold apply_move mask_of mover_mask opponent_mask toggle_player
  cases hp : s.next_player <;> simp [hp]

/-- `make_move` on an in-range legal square takes the success branch. -/
theorem make_move_ok_of_legal {s : BoardState} {m : Nat} (hm : m ∈ get_legal_moves s) :
    make_move (some (m : Int)) s = Except.ok (apply_move m s) := by
  have h64 := (mem_legal_moves_elim hm).1
  simp only [make_move]
  have hrange : ¬ ((m : Int) < 0 || (m : Int) > 63) = true := by
    simp only [Bool.or_eq_true, decide_eq_true_eq]
    push_neg
    constructor <;> omega
  rw [if_neg hrange]
  have hc : (get_legal_moves s).contains ((m : Int).toNat) = true := by
    rw [Int.toNat_natCast]
    exact List.elem_iff.mpr hm
  rw [if_pos hc, Int.toNat_natCast]

/-! ## Claim C2: effect of a legal move -/

/-- C2: for every board state and every square legal in it, `make_move`
succeeds and returns a state in which the mover's mask gains the target
square and every square of the flip mask, the opponent's mask loses
exactly the squares of the flip mask (the flip mask is contained in the
opponent mask), every other bit of both masks is unchanged, and
`next_player` is toggled. -/
theorem make_move_legal_effect (s : BoardState) (m : Nat) (hm : m ∈ get_legal_moves s) :
    make_move (some (m : Int)) s = Except.ok (apply_move m s) ∧
    (∀ p : Nat, (mask_of s.next_player (apply_move m s)).testBit p =
      ((mover_mask s).testBit p ||
        (get_flips_mask m (mover_mask s) (opponent_mask s)).testBit p || decide (m = p))) ∧
    (∀ p : Nat, (mask_of (toggle_player s.next_player) (apply_move m s)).testBit p =
      ((opponent_mask s).testBit p &&
        !(get_flips_mask m (mover_mask s) (opponent_mask s)).testBit p)) ∧
    get_flips_mask m (mover_mask s) (opponent_mask s) &&& opponent_mask s =
      get_flips_mask m (mover_mask s) (opponent_mask s) ∧
    (apply_move m s).next_player = toggle_player s.next_player := by
  refine ⟨make_move_ok_of_legal hm, ?_, ?_, ?_, apply_move_next_player m s⟩
  · intro p
    rw [apply_move_mover, Nat.testBit_lor, Nat.testBit_lor, Nat.one_shiftLeft,
      Nat.testBit_two_pow]
  · intro p
    rw [apply_move_opponent, testBit_andNot]
  · apply Nat.eq_of_testBit_eq
    intro i
    rw [Nat.testBit_land]
    rcases hF : (get_flips_mask m (mover_mask s) (opponent_mask s)).testBit i with _ | _
    · rfl
    · rw [get_flips_mask_subset m _ _ i hF]
      rfl

/-- Witness for `make_move_legal_effect`: black plays square 19 from
the starting position. -/
theorem make_move_legal_effect_witness :
    19 ∈ get_legal_moves start_state ∧
    make_move (some (19 : Int)) start_state = Except.ok (apply_move 19 start_state) :=
  ⟨by decide, (make_move_legal_effect start_state 19 (by decide)).1⟩

/-! ## Claim C10: passing never fails and never checks legality -/

/-- C10: `make_move` with the pass input never raises, for every board
state (including states where the mover still has legal moves — no
check that passing is forced is performed): it returns the state with
both masks bit-identical and `next_player` toggled. -/
theorem pass_never_fails (s : BoardState) :
    make_move none s =
      Except.ok { black := s.black, white := s.white
                , next_player := toggle_player s.next_player } := rfl

/-! ## Claim C7: the error contract of `make_move` -/

/-- C7: `make_move` on a non-pass move fails exactly when the move is
out of range (`0..63`) or not currently legal for the mover; in the
embedding the input state is a value that the function cannot mutate,
so a raised error leaves it completely unaffected. -/
theorem make_move_error_iff (s : BoardState) (m : Int) :
    (∃ e, make_move (some m) s = Except.error e) ↔
    (m < 0 ∨ 63 < m ∨ m.toNat ∉ get_legal_moves s) := by
  simp only [make_move]
  by_cases hrange : (decide (m < 0) || decide (m > 63)) = true
  · rw [if_pos hrange]
    simp only [Bool.or_eq_true, decide_eq_true_eq] at hrange
    constructor
    · intro _
      rcases hrange with hr | hr
      · exact Or.inl hr
      · exact Or.inr (Or.inl hr)
    · intro _
      exact ⟨_, rfl⟩
  · rw [if_neg hrange]
    simp only [Bool.or_eq_true, decide_eq_true_eq] at hrange
    push_neg at hrange
    by_cases hc : (get_legal_moves s).contains m.toNat = true
    · rw [if_pos hc]
      constructor
      · rintro ⟨e, he⟩
        exact absurd he (by simp)
      · intro hbad
        rcases hbad with hbad | hbad | hbad
        · omega
        · omega
        · exact absurd (List.elem_iff.mp hc) hbad
    · rw [if_neg hc]
      constructor
      · intro _
        refine Or.inr (Or.inr ?_)
        intro hmem
        exact hc (List.elem_iff.mpr hmem)
      · intro _
        exact ⟨_, rfl⟩

/-! ## Claim C3: invariants of reachable states -/

theorem lt_two_pow_of_high_bits {x n : Nat} (h : ∀ i, n ≤ i → x.testBit i = false) :
    x < 2 ^ n := by
  have hx : x = x % 2 ^ n := by
    apply Nat.eq_of_testBit_eq
    intro i
    rw [Nat.testBit_mod_two_pow]
    by_cases hi : i < n
    · simp [hi]
    · simp [hi, h i (by omega)]
  rw [hx]
  exact Nat.mod_lt _ (Nat.pos_pow_of_pos n (by norm_num))

theorem mover_mask_lt {s : BoardState} (hb : s.black < 2 ^ 64) (hw : s.white < 2 ^ 64) :
    mover_mask s < 2 ^ 64 ∧ opponent_mask s < 2 ^ 64 := by
  cases hp : s.next_player
  · simp only [mover_mask, opponent_mask, hp, reduceIte]
    exact ⟨hb, hw⟩
  · simp only [mover_mask, opponent_mask, hp, reduceIte]
    exact ⟨hw, hb⟩

theorem testBit_ge_64_false {x : Nat} (hx : x < 2 ^ 64) {i : Nat} (hi : 64 ≤ i) :
    x.testBit i = false := by
  apply Nat.testBit_lt_two_pow
  calc x < 2 ^ 64 := hx
    _ ≤ 2 ^ i := Nat.pow_le_pow_right (by norm_num) hi

/-- Applying a legal move preserves disjointness of the two masks and
keeps both inside 64 bits. -/
theorem apply_move_invariant {s : BoardState} {m : Nat}
    (hdisj : s.black &&& s.white = 0) (hb : s.black < 2 ^ 64) (hw : s.white < 2 ^ 64)
    (hm : m ∈ get_legal_moves s) :
    (apply_move m s).black &&& (apply_move m s).white = 0 ∧
    (apply_move m s).black < 2 ^ 64 ∧ (apply_move m s).white < 2 ^ 64 := by
  obtain ⟨h64, hPm, hOm⟩ := mem_legal_moves_elim hm
  have hPO := mover_disjoint s hdisj
  obtain ⟨hPlt, hOlt⟩ := mover_mask_lt hb hw
  set P := mover_mask s with hPdef
  set O := opponent_mask s with hOdef
  set F := get_flips_mask m P O with hFdef
  have hFsub := get_flips_mask_subset m P O
  have hFlt : F < 2 ^ 64 := by
    apply lt_two_pow_of_high_bits
    intro i hi
    rcases hFi : F.testBit i with _ | _
    · rfl
    · have := hFsub i hFi
      rw [testBit_ge_64_false hOlt hi] at this
      exact absurd this (by decide)
  have hnewP : mask_of s.next_player (apply_move m s) = P ||| F ||| (1 <<< m) :=
    apply_move_mover m s
  have hnewO : mask_of (toggle_player s.next_player) (apply_move m s) = andNot O F :=
    apply_move_opponent m s
  have hdisj' : (P ||| F ||| (1 <<< m)) &&& andNot O F = 0 := by
    apply Nat.eq_of_testBit_eq
    intro i
    rw [Nat.testBit_land, Nat.testBit_lor, Nat.testBit_lor, testBit_andNot,
      Nat.one_shiftLeft, Nat.testBit_two_pow, Nat.zero_testBit]
    rcases hOi : O.testBit i with _ | _
    · simp
    · rcases hFi : F.testBit i with _ | _
      · simp only [Bool.not_false, Bool.and_true, Bool.or_false]
        rcases hPi : P.testBit i with _ | _
        · simp only [Bool.false_or]
          rcases hmi : decide (m = i) with _ | _
          · rfl
          · rw [decide_eq_true_eq] at hmi
            rw [← hmi] at hOi
            rw [hOm] at hOi
            exact absurd hOi (by decide)
        · have : (P &&& O).testBit i = true := by
            rw [Nat.testBit_land, hPi, hOi]
            rfl
          rw [hPO, Nat.zero_testBit] at this
          exact absurd this (by decide)
      · simp
  have hPlt' : P ||| F ||| (1 <<< m) < 2 ^ 64 := by
    refine Nat.or_lt_two_pow (Nat.or_lt_two_pow hPlt hFlt) ?_
    rw [Nat.one_shiftLeft]
    exact Nat.pow_lt_pow_right (by norm_num) h64
  have hOlt' : andNot O F < 2 ^ 64 := by
    apply lt_two_pow_of_high_bits
    intro i hi
    rw [testBit_andNot, testBit_ge_64_false hOlt hi]
    rfl
  cases hp : s.next_player
  · rw [hp] at hnewP
    rw [hp] at hnewO
    have hB : (apply_move m s).black = P ||| F ||| (1 <<< m) := hnewP
    have hW : (apply_move m s).white = andNot O F := hnewO
    rw [hB, hW]
    exact ⟨hdisj', hPlt', hOlt'⟩
  · rw [hp] at hnewP
    rw [hp] at hnewO
    have hW : (apply_move m s).white = P ||| F ||| (1 <<< m) := hnewP
    have hB : (apply_move m s).black = andNot O F := hnewO
    rw [hB, hW]
    refine ⟨?_, hOlt', hPlt'⟩
    rw [Nat.land_comm]
    exact hdisj'

/-- The states reachable from the canonical starting position by any
sequence of `make_move` calls (legal moves or passes). -/
inductive Reachable : BoardState → Prop where
  | start : Reachable start_state
  | step {s s' : BoardState} {mv : Option Int} :
      Reachable s → make_move mv s = Except.ok s' → Reachable s'

/-- Successful `make_move` calls are passes or legal applications. -/
theorem make_move_ok_cases {s s' : BoardState} {mv : Option Int}
    (h : make_move mv s = Except.ok s') :
    s' = pass_move s ∨ ∃ m : Nat, m ∈ get_legal_moves s ∧ s' = apply_move m s := by
  match mv with
  | none =>
    left
    have : make_move none s = Except.ok (pass_move s) := rfl
    rw [this] at h
    exact (Except.ok.injEq _ _ ▸ congrArg id h).symm ▸ by
      cases h with
      | refl => rfl
  | some mv =>
    right
    simp only [make_move] at h
    by_cases hrange : (decide (mv < 0) || decide (mv > 63)) = true
    · rw [if_pos hrange] at h
      exact absurd h (by simp)
    · rw [if_neg hrange] at h
      by_cases hc : (get_legal_moves s).contains mv.toNat = true
      · rw [if_pos hc] at h
        refine ⟨mv.toNat, List.elem_iff.mp hc, ?_⟩
        cases h with
        | refl => rfl
      · rw [if_neg hc] at h
        exact absurd h (by simp)

/-- C3: every state reachable from the canonical start by `make_move`
(legal moves or passes) has disjoint black and white masks, each
fitting in 64 bits. -/
theorem reachable_masks_invariant (s : BoardState) (h : Reachable s) :
    s.black &&& s.white = 0 ∧ s.black < 2 ^ 64 ∧ s.white < 2 ^ 64 := by
  induction h with
  | start => exact ⟨by decide, by decide, by decide⟩
  | step hr hok ih =>
    rcases make_move_ok_cases hok with rfl | ⟨m, hm, rfl⟩
    · exact ih
    · exact apply_move_invariant ih.1 ih.2.1 ih.2.2 hm

/-- Witness for `reachable_masks_invariant` at the starting state. -/
theorem reachable_masks_invariant_witness :
    start_state.black &&& start_state.white = 0 ∧
    start_state.black < 2 ^ 64 ∧ start_state.white < 2 ^ 64 :=
  reachable_masks_invariant start_state Reachable.start

/-! ## Claim C8: piece counting -/

/-- Helper for `popcount`: the usual divide-by-two bit count, with a
structural fuel argument (`n` itself bounds the recursion depth) so
that concrete instances reduce by evaluation. -/
def popcount_loop : Nat → Nat → Nat
  | 0, _ => 0
  | fuel + 1, n => if n = 0 then 0 else n % 2 + popcount_loop fuel (n / 2)

/-- Python's `bin(x).count('1')`: the number of set bits of `x`. -/
def popcount (n : Nat) : Nat :=
  popcount_loop n n

/-- Number of set bits among the low 64 (all bits, for masks below
`2 ^ 64`). -/
def pc64 (n : Nat) : Nat :=
  (List.range 64).countP n.testBit

theorem countP_testBit_zero (l : List Nat) : l.countP (Nat.testBit 0) = 0 := by
  apply List.countP_eq_zero.mpr
  intro x _
  simp [Nat.zero_testBit]

theorem popcount_loop_eq {k : Nat} :
    ∀ {n fuel : Nat}, n ≤ fuel → n < 2 ^ k →
      popcount_loop fuel n = (List.range k).countP n.testBit := by
  induction k with
  | zero =>
    intro n fuel hf hk
    have : n = 0 := by omega
    subst this
    cases fuel <;> simp [popcount_loop, countP_testBit_zero]
  | succ k ih =>
    intro n fuel hf hk
    rcases Nat.eq_zero_or_pos n with rfl | hn
    · cases fuel <;> simp [popcount_loop, countP_testBit_zero]
    · obtain ⟨f, rfl⟩ : ∃ f, fuel = f + 1 := ⟨fuel - 1, by omega⟩
      rw [popcount_loop, if_neg (by omega)]
      have hrec : popcount_loop f (n / 2) = (List.range k).countP (n / 2).testBit :=
        ih (by omega) (by omega)
      rw [hrec, List.range_succ_eq_map, List.countP_cons, List.countP_map]
      have hcount : (List.range k).countP (n.testBit ∘ Nat.succ) =
          (List.range k).countP (n / 2).testBit :=
        List.countP_congr fun i _ => by simp [Function.comp, Nat.testBit_succ]
      rw [hcount, Nat.testBit_zero]
      have h2 : n % 2 = 0 ∨ n % 2 = 1 := by omega
      rcases h2 with h2 | h2 <;> simp [h2] <;> omega

theorem popcount_eq_pc64 {n : Nat} (h : n < 2 ^ 64) : popcount n = pc64 n :=
  popcount_loop_eq (Nat.le_refl n) h

theorem countP_or_disjoint {a b : Nat} (h : a &&& b = 0) (l : List Nat) :
    l.countP (a ||| b).testBit = l.countP a.testBit + l.countP b.testBit := by
  induction l with
  | nil => rfl
  | cons x rest ih =>
    rw [List.countP_cons, List.countP_cons, List.countP_cons, ih, Nat.testBit_lor]
    have hx : ¬ (a.testBit x = true ∧ b.testBit x = true) := by
      rintro ⟨ha, hb⟩
      have : (a &&& b).testBit x = true := by
        rw [Nat.testBit_land, ha, hb]
        rfl
      rw [h, Nat.zero_testBit] at this
      exact absurd this (by decide)
    rcases ha : a.testBit x with _ | _ <;> rcases hb : b.testBit x with _ | _
    · simp [ha, hb]
    · simp only [ha, hb, Bool.false_or]
      simp
      omega
    · simp only [ha, hb, Bool.or_false]
      simp
      omega
    · exact absurd ⟨ha, hb⟩ hx

theorem pc64_or_disjoint {a b : Nat} (h : a &&& b = 0) :
    pc64 (a ||| b) = pc64 a + pc64 b :=
  countP_or_disjoint h (List.range 64)

theorem pc64_two_pow {m : Nat} (hm : m < 64) : pc64 (1 <<< m) = 1 := by
  unfold pc64
  rw [Nat.one_shiftLeft]
  have hgen : ∀ n : Nat, (List.range n).countP (2 ^ m).testBit = if m < n then 1 else 0 := by
    intro n
    induction n with
    | zero => simp
    | succ n ih =>
      rw [List.range_succ, List.countP_append, ih]
      simp only [List.countP_cons, List.countP_nil, Nat.testBit_two_pow]
      by_cases hmn : m = n
      · subst hmn
        simp
      · rw [decide_eq_false hmn]
        simp only [Bool.false_eq_true, if_false]
        by_cases hlt : m < n
        · rw [if_pos hlt, if_pos (by omega)]
        · rw [if_neg hlt, if_neg (by omega)]
  rw [hgen 64, if_pos hm]

/-- The opponent mask is recovered from the post-move opponent mask and
the flip mask. -/
theorem andNot_or_of_subset {O F : Nat}
    (hsub : ∀ i, F.testBit i = true → O.testBit i = true) :
    andNot O F ||| F = O ∧ andNot O F &&& F = 0 := by
  constructor
  · apply Nat.eq_of_testBit_eq
    intro i
    rw [Nat.testBit_lor, testBit_andNot]
    rcases hF : F.testBit i with _ | _
    · simp
    · simp [hsub i hF]
  · apply Nat.eq_of_testBit_eq
    intro i
    rw [Nat.testBit_land, testBit_andNot, Nat.zero_testBit]
    rcases hF : F.testBit i with _ | _ <;> simp

/-- C8 (amended): applying a legal move never decreases the total
piece count, and increases it by exactly 1: the placed piece.  The
flipped squares change color but stay on the board, so they do not
change the total. -/
theorem total_pieces_after_move (s : BoardState) (m : Nat)
    (hdisj : s.black &&& s.white = 0) (hb : s.black < 2 ^ 64) (hw : s.white < 2 ^ 64)
    (hm : m ∈ get_legal_moves s) :
    make_move (some (m : Int)) s = Except.ok (apply_move m s) ∧
    popcount (apply_move m s).black + popcount (apply_move m s).white =
      popcount s.black + popcount s.white + 1 := by
  refine ⟨make_move_ok_of_legal hm, ?_⟩
  obtain ⟨h64, hPm, hOm⟩ := mem_legal_moves_elim hm
  have hPO := mover_disjoint s hdisj
  obtain ⟨hPlt, hOlt⟩ := mover_mask_lt hb hw
  obtain ⟨hAdisj, hAblt, hAwlt⟩ := apply_move_invariant hdisj hb hw hm
  set P := mover_mask s with hPdef
  set O := opponent_mask s with hOdef
  set F := get_flips_mask m P O with hFdef
  have hFsub := get_flips_mask_subset m P O
  obtain ⟨hrecover, hOFdisj⟩ := andNot_or_of_subset hFsub
  -- the flip mask is disjoint from the mover mask and from the move bit
  have hPF : P &&& F = 0 := by
    apply Nat.eq_of_testBit_eq
    intro i
    rw [Nat.testBit_land, Nat.zero_testBit]
    rcases hFi : F.testBit i with _ | _
    · simp
    · have hOi := hFsub i hFi
      rcases hPi : P.testBit i with _ | _
      · simp
      · have : (P &&& O).testBit i = true := by
          rw [Nat.testBit_land, hPi, hOi]
          rfl
        rw [hPO, Nat.zero_testBit] at this
        exact absurd this (by decide)
  have hPFm : (P ||| F) &&& (1 <<< m) = 0 := by
    apply Nat.eq_of_testBit_eq
    intro i
    rw [Nat.testBit_land, Nat.testBit_lor, Nat.one_shiftLeft, Nat.testBit_two_pow,
      Nat.zero_testBit]
    rcases hmi : decide (m = i) with _ | _
    · simp
    · rw [decide_eq_true_eq] at hmi
      subst hmi
      rw [hPm]
      rcases hFi : F.testBit m with _ | _
      · simp
      · have hc := hFsub m hFi
        rw [hOm] at hc
        exact absurd hc (by decide)
  -- counting: the new mover mask has pc P + pc F + 1 bits, the new
  -- opponent mask has pc O - pc F bits
  have hFlt : F < 2 ^ 64 := by
    apply lt_two_pow_of_high_bits
    intro i hi
    rcases hFi : F.testBit i with _ | _
    · rfl
    · have := hFsub i hFi
      rw [testBit_ge_64_false hOlt hi] at this
      exact absurd this (by decide)
  have hmlt : (1 <<< m) < 2 ^ 64 := by
    rw [Nat.one_shiftLeft]
    exact Nat.pow_lt_pow_right (by norm_num) h64
  have hcount_new_mover : pc64 (P ||| F ||| (1 <<< m)) = pc64 P + pc64 F + 1 := by
    rw [pc64_or_disjoint hPFm, pc64_or_disjoint hPF, pc64_two_pow h64]
  have hcount_opp : pc64 (andNot O F) + pc64 F = pc64 O := by
    rw [← pc64_or_disjoint hOFdisj, hrecover]
  -- transfer to the concrete black/white fields
  have hnewP := apply_move_mover m s
  have hnewO := apply_move_opponent m s
  have hPOsum : popcount (apply_move m s).black + popcount (apply_move m s).white =
      popcount P + popcount O + 1 := by
    have hb' := popcount_eq_pc64 hAblt
    have hw' := popcount_eq_pc64 hAwlt
    have hP' := popcount_eq_pc64 hPlt
    have hO' := popcount_eq_pc64 hOlt
    cases hp : s.next_player
    · rw [hp] at hnewP hnewO
      have h1 : (apply_move m s).black = P ||| F ||| (1 <<< m) := hnewP
      have h2 : (apply_move m s).white = andNot O F := hnewO
      rw [hb', hw', hP', hO', h1, h2, hcount_new_mover]
      omega
    · rw [hp] at hnewP hnewO
      have h1 : (apply_move m s).white = P ||| F ||| (1 <<< m) := hnewP
      have h2 : (apply_move m s).black = andNot O F := hnewO
      rw [hb', hw', hP', hO', h1, h2, hcount_new_mover]
      omega
  rw [hPOsum]
  have : popcount P + popcount O = popcount s.black + popcount s.white := by
    rw [hPdef, hOdef]
    unfold mover_mask opponent_mask
    cases hp : s.next_player <;> simp [hp] <;> omega
  omega

/-- Witness for `total_pieces_after_move`: black plays 19 from the
start. -/
theorem total_pieces_after_move_witness :
    make_move (some (19 : Int)) start_state = Except.ok (apply_move 19 start_state) ∧
    popcount (apply_move 19 start_state).black + popcount (apply_move 19 start_state).white =
      popcount start_state.black + popcount start_state.white + 1 :=
  total_pieces_after_move start_state 19 (by decide) (by decide) (by decide) (by decide)

/-- Counterexample to C8 as stated: the claim predicts the total count
grows by `1 + popcount flips`, but black playing square 19 from the
start flips one white piece and the total only grows from 4 to 5, not
to 6. -/
theorem total_pieces_claim_counterexample :
    19 ∈ get_legal_moves start_state ∧
    make_move (some (19 : Int)) start_state = Except.ok (apply_move 19 start_state) ∧
    popcount (get_flips_mask 19 (mover_mask start_state) (opponent_mask start_state)) = 1 ∧
    popcount (apply_move 19 start_state).black + popcount (apply_move 19 start_state).white = 5 ∧
    popcount start_state.black + popcount start_state.white + 1 +
      popcount (get_flips_mask 19 (mover_mask start_state) (opponent_mask start_state)) = 6 ∧
    (5 : Nat) ≠ 6 := by
  refine ⟨by decide, by decide, by decide, by decide, by decide, by decide⟩

/-! ## Scores: exact rationals plus the two float infinities -/

/-- Model of the float scores used by the searches: exact rationals
together with `float('-inf')` and `float('inf')`, which the code uses
as initial alpha/beta bounds and as the initial running maximum. -/
inductive Score where
  | negInf : Score
  | val : ℚ → Score
  | posInf : Score
deriving DecidableEq, Repr

namespace Score

/-- The float comparison restricted to the values that occur. -/
def ble : Score → Score → Bool
  | negInf, _ => true
  | _, posInf => true
  | val a, val b => decide (a ≤ b)
  | _, _ => false

instance : LE Score := ⟨fun a b => ble a b = true⟩
instance : LT Score := ⟨fun a b => a ≤ b ∧ ¬ b ≤ a⟩

theorem le_iff_ble {a b : Score} : a ≤ b ↔ ble a b = true := Iff.rfl

@[simp] theorem ble_negInf_left (b : Score) : ble negInf b = true := by cases b <;> rfl

@[simp] theorem ble_posInf_right (a : Score) : ble a posInf = true := by cases a <;> rfl

@[simp] theorem ble_val_val (a b : ℚ) : ble (val a) (val b) = decide (a ≤ b) := rfl

@[simp] theorem ble_posInf_val (q : ℚ) : ble posInf (val q) = false := rfl

@[simp] theorem ble_posInf_negInf : ble posInf negInf = false := rfl

@[simp] theorem ble_val_negInf (q : ℚ) : ble (val q) negInf = false := rfl

instance : LinearOrder Score where
  le_refl a := by
    cases a <;> simp [le_iff_ble]
  le_trans a b c hab hbc := by
    cases a <;> cases b <;> cases c <;> simp_all [le_iff_ble]
    exact hab.trans hbc
  le_antisymm a b hab hba := by
    cases a <;> cases b <;> simp_all [le_iff_ble]
    exact hab.antisymm hba
  le_total a b := by
    cases a <;> cases b <;> simp [le_iff_ble]
    exact le_total _ _
  lt_iff_le_not_le a b := Iff.rfl
  decidableLE a b := inferInstanceAs (Decidable (ble a b = true))

instance (a b : Score) : Decidable (a ≤ b) :=
  inferInstanceAs (Decidable (ble a b = true))

/-- Float negation on scores. -/
def neg : Score → Score
  | negInf => posInf
  | val q => val (-q)
  | posInf => negInf

@[simp] theorem neg_neg (a : Score) : a.neg.neg = a := by
  cases a <;> simp [neg]

@[simp] theorem neg_le_neg_iff {a b : Score} : a.neg ≤ b.neg ↔ b ≤ a := by
  cases a <;> cases b <;> simp [neg, le_iff_ble]

@[simp] theorem neg_lt_neg_iff {a b : Score} : a.neg < b.neg ↔ b < a := by
  constructor
  · rintro ⟨h1, h2⟩
    exact ⟨neg_le_neg_iff.mp h1, fun hc => h2 (neg_le_neg_iff.mpr hc)⟩
  · rintro ⟨h1, h2⟩
    exact ⟨neg_le_neg_iff.mpr h1, fun hc => h2 (neg_le_neg_iff.mp hc)⟩

theorem le_neg_iff {a b : Score} : a ≤ b.neg ↔ b ≤ a.neg := by
  constructor <;> intro h <;>
    · have := neg_le_neg_iff.mpr h
      rw [neg_neg] at this
      exact this

theorem neg_le_iff {a b : Score} : a.neg ≤ b ↔ b.neg ≤ a := by
  constructor <;> intro h <;>
    · have := neg_le_neg_iff.mpr h
      rw [neg_neg] at this
      exact this

theorem lt_neg_iff {a b : Score} : a < b.neg ↔ b < a.neg := by
  constructor <;> intro h <;>
    · have := neg_lt_neg_iff.mpr h
      rw [neg_neg] at this
      exact this

theorem neg_lt_iff {a b : Score} : a.neg < b ↔ b.neg < a := by
  constructor <;> intro h <;>
    · have := neg_lt_neg_iff.mpr h
      rw [neg_neg] at this
      exact this

@[simp] theorem negInf_le (a : Score) : negInf ≤ a := by
  rw [le_iff_ble, ble_negInf_left]

@[simp] theorem le_posInf (a : Score) : a ≤ posInf := by
  rw [le_iff_ble, ble_posInf_right]

@[simp] theorem negInf_lt_val (q : ℚ) : negInf < val q := by
  refine ⟨negInf_le _, ?_⟩
  rw [le_iff_ble, ble_val_negInf]
  exact Bool.false_ne_true

@[simp] theorem val_lt_posInf (q : ℚ) : val q < posInf := by
  refine ⟨le_posInf _, ?_⟩
  rw [le_iff_ble, ble_posInf_val]
  exact Bool.false_ne_true

@[simp] theorem negInf_lt_posInf : (negInf : Score) < posInf := by
  refine ⟨negInf_le _, ?_⟩
  rw [le_iff_ble, ble_posInf_negInf]
  exact Bool.false_ne_true

@[simp] theorem max_negInf (a : Score) : max negInf a = a :=
  max_eq_right (negInf_le a)

theorem val_le_val_iff {a b : ℚ} : val a ≤ val b ↔ a ≤ b := by
  rw [le_iff_ble, ble_val_val]
  exact decide_eq_true_iff

/-- A score is finite. -/
def isVal (a : Score) : Prop := ∃ q : ℚ, a = val q

theorem isVal_neg {a : Score} (h : isVal a) : isVal a.neg := by
  obtain ⟨q, rfl⟩ := h
  exact ⟨-q, rfl⟩

theorem isVal_max {a b : Score} (ha : isVal a) (hb : isVal b) : isVal (max a b) := by
  rcases le_total a b with h | h
  · rw [max_eq_right h]
    exact hb
  · rw [max_eq_left h]
    exact ha

end Score

/-! ## strategy_negamax.py: evaluation -/

/-- The five evaluation weights (the dict keys of `DEFAULT_WEIGHTS`). -/
structure Weights where
  mobility : ℚ
  corners : ℚ
  corner_adjacent : ℚ
  edges : ℚ
  piece_count : ℚ
deriving DecidableEq, Repr

/-- `DEFAULT_WEIGHTS` from strategy_negamax.py (the float literals read
as exact decimals). -/
def default_weights : Weights :=
  { mobility := 20.585377749475168
  , corners := 98.72636463496178
  , corner_adjacent := 43.89928663721947
  , edges := 8.557803407573122
  , piece_count := 2.0084825493628227 }

/-- All-zero weights (used to exercise the search where the heuristic
value is identically 0). -/
def zero_weights : Weights :=
  { mobility := 0, corners := 0, corner_adjacent := 0, edges := 0, piece_count := 0 }

/-- The corner squares of `evaluate`. -/
def corners_list : List Nat := [0, 7, 56, 63]

/-- The `corner_adjacent` table of `evaluate`. -/
def corner_adjacent_list : List (Nat × List Nat) :=
  [(0, [1, 8, 9]), (7, [6, 14, 15]), (56, [48, 49, 57]), (63, [54, 55, 62])]

/-- The `edges` list of `evaluate`. -/
def edges_list : List Nat :=
  [1, 2, 3, 4, 5, 6, 8, 16, 24, 32, 40, 48, 15, 23, 31, 39, 47, 55, 57, 58, 59, 60, 61, 62]

/-- `evaluate` from strategy_negamax.py: the weighted positional score
from the mover's perspective (mobility, corners, corner-adjacency
penalty, edges, scaled piece difference). -/
def evaluate (board_state : BoardState) (w : Weights) : ℚ :=
  let player_pieces :=
    if board_state.next_player = Player.black then board_state.black else board_state.white
  let opponent_pieces :=
    if board_state.next_player = Player.black then board_state.white else board_state.black
  let player_mobility : Nat := (get_legal_moves board_state).length
  let temp_board : BoardState :=
    { black := board_state.black
    , white := board_state.white
    , next_player :=
        if board_state.next_player = Player.black then Player.white else Player.black }
  let opponent_mobility : Nat := (get_legal_moves temp_board).length
  let score1 : ℚ :=
    if player_mobility + opponent_mobility ≠ 0 then
      0 + w.mobility * ((player_mobility : ℚ) - (opponent_mobility : ℚ))
    else 0
  let player_corners := corners_list.countP fun c => hasBit player_pieces c
  let opponent_corners := corners_list.countP fun c => hasBit opponent_pieces c
  let score2 := score1 + w.corners * ((player_corners : ℚ) - (opponent_corners : ℚ))
  let score3 := corner_adjacent_list.foldl
    (fun acc ca =>
      if hasBit (player_pieces ||| opponent_pieces) ca.1 then acc
      else ca.2.foldl
        (fun acc2 adj =>
          let acc3 := if hasBit player_pieces adj then acc2 - w.corner_adjacent else acc2
          if hasBit opponent_pieces adj then acc3 + w.corner_adjacent else acc3)
        acc)
    score2
  let player_edges := edges_list.countP fun e => hasBit player_pieces e
  let opponent_edges := edges_list.countP fun e => hasBit opponent_pieces e
  let score4 := score3 + w.edges * ((player_edges : ℚ) - (opponent_edges : ℚ))
  let total_pieces := popcount (player_pieces ||| opponent_pieces)
  let piece_weight : ℚ := (total_pieces : ℚ) / 64
  let player_count := popcount player_pieces
  let opponent_count := popcount opponent_pieces
  score4 + piece_weight * w.piece_count * ((player_count : ℚ) - (opponent_count : ℚ))

/-- `evaluate_final` from strategy_negamax.py: +1000 / -1000 / 0 by
final piece count, from the mover's perspective. -/
def evaluate_final (board_state : BoardState) : ℚ :=
  let player_pieces :=
    if board_state.next_player = Player.black then board_state.black else board_state.white
  let opponent_pieces :=
    if board_state.next_player = Player.black then board_state.white else board_state.black
  let player_count := popcount player_pieces
  let opponent_count := popcount opponent_pieces
  if opponent_count < player_count then 1000
  else if player_count < opponent_count then -1000
  else 0

/-! ## strategy_negamax.py: the search -/

mutual

/-- `negamax` from strategy_negamax.py: negamax with alpha-beta
pruning.  The `for move in legal_moves` loop with its running
`max_score`/`alpha` and beta cutoff is `negamax_loop` below.  The pass
branch recurses at the same depth; this terminates because the passed
state is only searched when the opponent has moves. -/
def negamax (board_state : BoardState) (depth : Nat) (alpha beta : Score) (w : Weights) :
    Score :=
  if depth = 0 then Score.val (evaluate board_state w)
  else if h : (get_legal_moves board_state).isEmpty then
    let new_board := pass_move board_state
    if h2 : (get_legal_moves new_board).isEmpty then
      Score.val (evaluate_final board_state)
    else
      (negamax new_board depth beta.neg alpha.neg w).neg
  else
    negamax_loop (get_legal_moves board_state) board_state (depth - 1) alpha beta w
      Score.negInf
termination_by (depth, if (get_legal_moves board_state).isEmpty then 2 else 1, 0)
decreasing_by
  all_goals
    first
      | decreasing_tactic
      | (simp_wf
         apply Prod.Lex.right
         apply Prod.Lex.left
         have hA : get_legal_moves board_state = [] := List.isEmpty_iff.mp h
         have hB : get_legal_moves (pass_move board_state) ≠ [] := fun hc =>
           h2 (List.isEmpty_iff.mpr hc)
         rw [if_pos hA, if_neg hB]
         omega)
      | (simp_wf
         have hd : depth - 1 + 1 = depth := by omega
         rw [hd]
         apply Prod.Lex.right
         apply Prod.Lex.left
         have hB : get_legal_moves board_state ≠ [] := fun hc =>
           h (List.isEmpty_iff.mpr hc)
         rw [if_neg hB]
         omega)

/-- The move loop of `negamax`, with the loop state (`alpha`,
`max_score`) as arguments; `d` is the child depth `depth - 1`. -/
def negamax_loop (moves : List Nat) (board_state : BoardState) (d : Nat)
    (alpha beta : Score) (w : Weights) (max_score : Score) : Score :=
  match moves with
  | [] => max_score
  | move :: rest =>
    let score := (negamax (apply_move move board_state) d beta.neg alpha.neg w).neg
    let max_score' := max max_score score
    let alpha' := max alpha score
    if beta ≤ alpha' then max_score'
    else negamax_loop rest board_state d alpha' beta w max_score'
termination_by (d + 1, 0, moves.length)

end

mutual

/-- Spec-side reference recursion for the refinement claim: "the
identical recursion with the alpha-beta cutoff removed (plain
negamax/minimax to the same depth with the same pass and terminal
handling)".  It differs from `negamax` only in its move loop, which
visits every legal move and keeps the running maximum, with no window
and no early break. -/
def negamax_plain (board_state : BoardState) (depth : Nat) (w : Weights) : Score :=
  if depth = 0 then Score.val (evaluate board_state w)
  else if h : (get_legal_moves board_state).isEmpty then
    let new_board := pass_move board_state
    if h2 : (get_legal_moves new_board).isEmpty then
      Score.val (evaluate_final board_state)
    else
      (negamax_plain new_board depth w).neg
  else
    plain_loop (get_legal_moves board_state) board_state (depth - 1) w Score.negInf
termination_by (depth, if (get_legal_moves board_state).isEmpty then 2 else 1, 0)
decreasing_by
  all_goals
    first
      | decreasing_tactic
      | (simp_wf
         apply Prod.Lex.right
         apply Prod.Lex.left
         have hA : get_legal_moves board_state = [] := List.isEmpty_iff.mp h
         have hB : get_legal_moves (pass_move board_state) ≠ [] := fun hc =>
           h2 (List.isEmpty_iff.mpr hc)
         rw [if_pos hA, if_neg hB]
         omega)
      | (simp_wf
         have hd : depth - 1 + 1 = depth := by omega
         rw [hd]
         apply Prod.Lex.right
         apply Prod.Lex.left
         have hB : get_legal_moves board_state ≠ [] := fun hc =>
           h (List.isEmpty_iff.mpr hc)
         rw [if_neg hB]
         omega)

/-- The move loop of `negamax_plain`: no pruning, plain running
maximum. -/
def plain_loop (moves : List Nat) (board_state : BoardState) (d : Nat) (w : Weights)
    (max_score : Score) : Score :=
  match moves with
  | [] => max_score
  | move :: rest =>
    let score := (negamax_plain (apply_move move board_state) d w).neg
    plain_loop rest board_state d w (max max_score score)
termination_by (d + 1, 0, moves.length)

end

/-! ## Claim C4: pass handling and terminal evaluation in `negamax` -/

/-- C4 (amended): at every remaining depth of at least 1, a mover with
no legal move makes `negamax` apply a pass and recurse with negated
signs at the same depth; if the opponent also has no legal move it
returns the terminal evaluation instead.  (At depth 0 the `depth == 0`
check fires first and the heuristic `evaluate` is returned, so the
terminal evaluation is not reached there; see the counterexample.) -/
theorem negamax_pass_and_terminal (s : BoardState) (depth : Nat) (alpha beta : Score)
    (w : Weights) (hd : depth ≠ 0) (hnm : get_legal_moves s = []) :
    (get_legal_moves (pass_move s) ≠ [] →
      negamax s depth alpha beta w =
        (negamax (pass_move s) depth beta.neg alpha.neg w).neg) ∧
    (get_legal_moves (pass_move s) = [] →
      negamax s depth alpha beta w = Score.val (evaluate_final s)) := by
  constructor
  · intro hopp
    rw [negamax, if_neg hd, dif_pos (List.isEmpty_iff.mpr hnm),
      dif_neg fun hc => hopp (List.isEmpty_iff.mp hc)]
  · intro hopp
    rw [negamax, if_neg hd, dif_pos (List.isEmpty_iff.mpr hnm),
      dif_pos (List.isEmpty_iff.mpr hopp)]

/-- A board where the mover (black) is stuck but white can move after
the pass. -/
def stuck_state : BoardState :=
  { black := 2, white := 252, next_player := Player.black }

/-- A board where neither side has a legal move. -/
def dead_state : BoardState :=
  { black := 1, white := 0, next_player := Player.black }

/-- Witness for `negamax_pass_and_terminal`, both branches, at
depth 1. -/
theorem negamax_pass_and_terminal_witness :
    (negamax stuck_state 1 Score.negInf Score.posInf default_weights =
      (negamax (pass_move stuck_state) 1 Score.posInf.neg Score.negInf.neg
        default_weights).neg) ∧
    (negamax dead_state 1 Score.negInf Score.posInf default_weights =
      Score.val (evaluate_final dead_state)) :=
  ⟨(negamax_pass_and_terminal stuck_state 1 Score.negInf Score.posInf default_weights
      (by decide) (by decide)).1 (by decide),
   (negamax_pass_and_terminal dead_state 1 Score.negInf Score.posInf default_weights
      (by decide) (by decide)).2 (by decide)⟩

theorem evaluate_zero_weights (s : BoardState) : evaluate s zero_weights = 0 := by
  unfold evaluate zero_weights
  simp [corner_adjacent_list, List.foldl, mul_zero, zero_mul, sub_zero, add_zero, ite_self]

/-- Counterexample to C4 as stated: in a position where both sides are
stuck, `negamax` at depth 0 returns the heuristic evaluation (here 0,
under all-zero weights), not the terminal evaluation (+1000) — the
`depth == 0` base case takes precedence over the game-over check, so
"including depth 0" fails. -/
theorem negamax_depth0_counterexample :
    get_legal_moves dead_state = [] ∧
    get_legal_moves (pass_move dead_state) = [] ∧
    negamax dead_state 0 Score.negInf Score.posInf zero_weights = Score.val 0 ∧
    Score.val (evaluate_final dead_state) = Score.val 1000 ∧
    negamax dead_state 0 Score.negInf Score.posInf zero_weights ≠
      Score.val (evaluate_final dead_state) := by
  have h1 : get_legal_moves dead_state = [] := by decide
  have h2 : get_legal_moves (pass_move dead_state) = [] := by decide
  have h3 : negamax dead_state 0 Score.negInf Score.posInf zero_weights = Score.val 0 := by
    rw [negamax, if_pos rfl, evaluate_zero_weights]
  have hcount : popcount 0 < popcount 1 := by decide
  have h4 : evaluate_final dead_state = 1000 := by
    unfold evaluate_final dead_state
    simp [hcount]
  refine ⟨h1, h2, h3, by rw [h4], ?_⟩
  rw [h3, h4]
  intro hc
  rw [Score.val.injEq] at hc
  norm_num at hc

/-! ## strategy_mcts.py: random playout (`_simulate`) -/

/-- Number of empty squares on the board. -/
def empty_count (s : BoardState) : Nat :=
  (List.range 64).countP fun i => !(s.black ||| s.white).testBit i

theorem countP_lt_of_witness {α : Type} {p q : α → Bool} {l : List α}
    (hsub : ∀ x ∈ l, q x = true → p x = true) {a : α} (ha : a ∈ l)
    (hpa : p a = true) (hqa : q a = false) : l.countP q < l.countP p := by
  obtain ⟨l1, l2, rfl⟩ := List.append_of_mem ha
  rw [List.countP_append, List.countP_append, List.countP_cons, List.countP_cons, hpa, hqa]
  have h1 : l1.countP q ≤ l1.countP p :=
    List.countP_mono_left fun x hx => hsub x (by simp [hx])
  have h2 : l2.countP q ≤ l2.countP p :=
    List.countP_mono_left fun x hx => hsub x (by simp [hx])
  simp only [if_true]
  have : (if false = true then 1 else 0) = 0 := rfl
  rw [this]
  omega

/-- Applying a move occupies exactly one more square: the target. -/
theorem occupied_apply_move {s : BoardState} {m : Nat} (hm : m ∈ get_legal_moves s) :
    ∀ i : Nat, ((apply_move m s).black ||| (apply_move m s).white).testBit i =
      ((s.black ||| s.white).testBit i || decide (m = i)) := by
  intro i
  cases hp : s.next_player
  · have hb' : (apply_move m s).black =
        s.black ||| get_flips_mask m s.black s.white ||| (1 <<< m) := by
      simp [apply_move, hp]
    have hw' : (apply_move m s).white =
        andNot s.white (get_flips_mask m s.black s.white) := by
      simp [apply_move, hp]
    have hsub : ∀ j, (get_flips_mask m s.black s.white).testBit j = true →
        s.white.testBit j = true := get_flips_mask_subset m s.black s.white
    rw [hb', hw', Nat.testBit_lor, Nat.testBit_lor, Nat.testBit_lor, Nat.testBit_lor,
      testBit_andNot, Nat.one_shiftLeft, Nat.testBit_two_pow]
    rcases hF : (get_flips_mask m s.black s.white).testBit i with _ | _
    · rcases s.black.testBit i with _ | _ <;> rcases s.white.testBit i with _ | _ <;>
        rcases decide (m = i) with _ | _ <;> rfl
    · rw [hsub i hF]
      rcases s.black.testBit i with _ | _ <;> rcases decide (m = i) with _ | _ <;> rfl
  · have hw' : (apply_move m s).white =
        s.white ||| get_flips_mask m s.white s.black ||| (1 <<< m) := by
      simp [apply_move, hp]
    have hb' : (apply_move m s).black =
        andNot s.black (get_flips_mask m s.white s.black) := by
      simp [apply_move, hp]
    have hsub : ∀ j, (get_flips_mask m s.white s.black).testBit j = true →
        s.black.testBit j = true := get_flips_mask_subset m s.white s.black
    rw [hb', hw', Nat.testBit_lor, Nat.testBit_lor, Nat.testBit_lor, Nat.testBit_lor,
      testBit_andNot, Nat.one_shiftLeft, Nat.testBit_two_pow]
    rcases hF : (get_flips_mask m s.white s.black).testBit i with _ | _
    · rcases s.black.testBit i with _ | _ <;> rcases s.white.testBit i with _ | _ <;>
        rcases decide (m = i) with _ | _ <;> rfl
    · rw [hsub i hF]
      rcases s.white.testBit i with _ | _ <;> rcases decide (m = i) with _ | _ <;> rfl

/-- A legal move strictly decreases the number of empty squares. -/
theorem empty_count_apply_move_lt {s : BoardState} {m : Nat} (hm : m ∈ get_legal_moves s) :
    empty_count (apply_move m s) < empty_count s := by
  obtain ⟨h64, hPm, hOm⟩ := mem_legal_moves_elim hm
  have hocc : (s.black ||| s.white).testBit m = false := by
    cases hp : s.next_player <;>
      · rw [mover_mask, hp] at hPm
        rw [opponent_mask, hp] at hOm
        simp at hPm hOm
        rw [Nat.testBit_lor]
        simp [hPm, hOm]
  have hocc' : ((apply_move m s).black ||| (apply_move m s).white).testBit m = true := by
    rw [occupied_apply_move hm m, hocc]
    simp
  unfold empty_count
  refine countP_lt_of_witness ?_ (List.mem_range.mpr h64) ?_ ?_
  · intro x _ hq
    simp only [Bool.not_eq_true'] at hq ⊢
    rw [occupied_apply_move hm x, Bool.or_eq_false_iff] at hq
    exact hq.1
  · simp only [Bool.not_eq_true']
    exact hocc
  · simp only [Bool.not_eq_false']
    exact hocc'

/-- `_simulate` from strategy_mcts.py: play random moves until two
consecutive passes, then score plus one, zero, or minus one from the root player's
perspective.  `random.choice` is modelled by an external stream `rng`
of naturals consumed at index `k`; the function returns the result
together with the next unused stream index.  The `while` loop state
(`state`, `consecutive_passes`) is passed as arguments. -/
def simulate (board_state : BoardState) (root_player : Player) (rng : Nat → Nat)
    (k : Nat) (consecutive_passes : Nat) : ℚ × Nat :=
  if 2 ≤ consecutive_passes then
    let black_count := popcount board_state.black
    let white_count := popcount board_state.white
    if black_count = white_count then (0, k)
    else
      let winner := if white_count < black_count then Player.black else Player.white
      (if winner = root_player then 1 else -1, k)
  else
    if hm : get_legal_moves board_state = [] then
      simulate (pass_move board_state) root_player rng k (consecutive_passes + 1)
    else
      let moves := get_legal_moves board_state
      let move := moves.get
        ⟨rng k % moves.length, Nat.mod_lt _ (List.length_pos.mpr hm)⟩
      simulate (apply_move move board_state) root_player rng (k + 1) 0
termination_by 3 * empty_count board_state + (2 - consecutive_passes)
decreasing_by
  · have hpass : empty_count (pass_move board_state) = empty_count board_state := rfl
    omega
  · have hlt : empty_count (apply_move ((get_legal_moves board_state).get
        ⟨rng k % (get_legal_moves board_state).length,
         Nat.mod_lt _ (List.length_pos.mpr hm)⟩) board_state) < empty_count board_state :=
      empty_count_apply_move_lt (List.get_mem _ _ _)
    omega

/-- Fuel-bounded runner for `simulate`: `none` when the fuel runs out
before the playout reaches two consecutive passes. -/
def simulateFuel (fuel : Nat) (board_state : BoardState) (root_player : Player)
    (rng : Nat → Nat) (k : Nat) (consecutive_passes : Nat) : Option (ℚ × Nat) :=
  match fuel with
  | 0 => none
  | fuel + 1 =>
    if 2 ≤ consecutive_passes then
      let black_count := popcount board_state.black
      let white_count := popcount board_state.white
      if black_count = white_count then some (0, k)
      else
        let winner := if white_count < black_count then Player.black else Player.white
        some (if winner = root_player then 1 else -1, k)
    else
      if hm : get_legal_moves board_state = [] then
        simulateFuel fuel (pass_move board_state) root_player rng k (consecutive_passes + 1)
      else
        let moves := get_legal_moves board_state
        let move := moves.get
          ⟨rng k % moves.length, Nat.mod_lt _ (List.length_pos.mpr hm)⟩
        simulateFuel fuel (apply_move move board_state) root_player rng (k + 1) 0

/-- The random playout reaches two consecutive passes after finitely
many steps: some finite fuel makes the bounded runner agree with
`simulate`. -/
theorem simulateFuel_converges (board_state : BoardState) (root_player : Player)
    (rng : Nat → Nat) (k : Nat) (consecutive_passes : Nat) :
    ∃ fuel, simulateFuel fuel board_state root_player rng k consecutive_passes =
      some (simulate board_state root_player rng k consecutive_passes) := by
  generalize hn : 3 * empty_count board_state + (2 - consecutive_passes) = n
  induction n using Nat.strong_induction_on generalizing board_state k consecutive_passes with
  | _ n ih =>
    by_cases hdone : 2 ≤ consecutive_passes
    · refine ⟨1, ?_⟩
      rw [simulate, if_pos hdone]
      rw [simulateFuel, if_pos hdone]
      by_cases hq : popcount board_state.black = popcount board_state.white
      · simp [hq]
      · simp [hq]
    · by_cases hm : get_legal_moves board_state = []
      · have hpass : empty_count (pass_move board_state) = empty_count board_state := rfl
        obtain ⟨fuel, hfuel⟩ := ih (3 * empty_count (pass_move board_state) +
            (2 - (consecutive_passes + 1))) (by omega) (pass_move board_state) k
            (consecutive_passes + 1) rfl
        refine ⟨fuel + 1, ?_⟩
        rw [simulate, if_neg hdone, dif_pos hm]
        rw [simulateFuel, if_neg hdone, dif_pos hm]
        exact hfuel
      · have hlt : empty_count (apply_move ((get_legal_moves board_state).get
            ⟨rng k % (get_legal_moves board_state).length,
             Nat.mod_lt _ (List.length_pos.mpr hm)⟩) board_state) <
            empty_count board_state :=
          empty_count_apply_move_lt (List.get_mem _ _ _)
        obtain ⟨fuel, hfuel⟩ := ih (3 * empty_count (apply_move
            ((get_legal_moves board_state).get
              ⟨rng k % (get_legal_moves board_state).length,
               Nat.mod_lt _ (List.length_pos.mpr hm)⟩) board_state) + (2 - 0))
            (by omega) _ (k + 1) 0 rfl
        refine ⟨fuel + 1, ?_⟩
        rw [simulate, if_neg hdone, dif_neg hm]
        rw [simulateFuel, if_neg hdone, dif_neg hm]
        exact hfuel

/-! ## Claim C9: termination of the searches -/

/-- C9: for boards satisfying the data-model invariant, `negamax` is a
total function (it is defined by well-founded recursion in this file,
and here it is proved to satisfy its one-step recursion equation at
every input, pass case included), and the MCTS random playout reaches
two consecutive passes after finitely many steps, for every choice
stream (some finite fuel suffices for the bounded runner). -/
theorem negamax_total_and_simulation_terminates (s : BoardState)
    (hdisj : s.black &&& s.white = 0) (depth : Nat) (alpha beta : Score) (w : Weights)
    (root_player : Player) (rng : Nat → Nat) (k : Nat) :
    (negamax s depth alpha beta w =
      if depth = 0 then Score.val (evaluate s w)
      else if (get_legal_moves s).isEmpty then
        if (get_legal_moves (pass_move s)).isEmpty then Score.val (evaluate_final s)
        else (negamax (pass_move s) depth beta.neg alpha.neg w).neg
      else
        negamax_loop (get_legal_moves s) s (depth - 1) alpha beta w Score.negInf) ∧
    (∃ fuel, simulateFuel fuel s root_player rng k 0 =
      some (simulate s root_player rng k 0)) := by
  constructor
  · conv_lhs => rw [negamax]
    simp only [dite_eq_ite]
  · exact simulateFuel_converges s root_player rng k 0

/-- Witness for `negamax_total_and_simulation_terminates` at the
starting position. -/
theorem negamax_total_and_simulation_terminates_witness :
    start_state.black &&& start_state.white = 0 ∧
    (∃ fuel, simulateFuel fuel start_state Player.black (fun _ => 0) 0 0 =
      some (simulate start_state Player.black (fun _ => 0) 0 0)) :=
  ⟨by decide,
   (negamax_total_and_simulation_terminates start_state (by decide) 4 Score.negInf
      Score.posInf default_weights Player.black (fun _ => 0) 0).2⟩

/-! ## Claim C5: alpha-beta pruning returns the plain negamax value -/

theorem negamax_loop_nil (s : BoardState) (d : Nat) (alpha beta : Score) (w : Weights)
    (m : Score) : negamax_loop [] s d alpha beta w m = m := by
  rw [negamax_loop]

theorem negamax_loop_cons (mv : Nat) (rest : List Nat) (s : BoardState) (d : Nat)
    (alpha beta : Score) (w : Weights) (m : Score) :
    negamax_loop (mv :: rest) s d alpha beta w m =
      if beta ≤ max alpha ((negamax (apply_move mv s) d beta.neg alpha.neg w).neg) then
        max m ((negamax (apply_move mv s) d beta.neg alpha.neg w).neg)
      else
        negamax_loop rest s d (max alpha ((negamax (apply_move mv s) d beta.neg alpha.neg w).neg))
          beta w (max m ((negamax (apply_move mv s) d beta.neg alpha.neg w).neg)) := by
  rw [negamax_loop]

theorem plain_loop_nil (s : BoardState) (d : Nat) (w : Weights) (m : Score) :
    plain_loop [] s d w m = m := by
  rw [plain_loop]

theorem plain_loop_cons (mv : Nat) (rest : List Nat) (s : BoardState) (d : Nat) (w : Weights)
    (m : Score) :
    plain_loop (mv :: rest) s d w m =
      plain_loop rest s d w (max m ((negamax_plain (apply_move mv s) d w).neg)) := by
  rw [plain_loop]

theorem plain_loop_ge (moves : List Nat) (s : BoardState) (d : Nat) (w : Weights) :
    ∀ m : Score, m ≤ plain_loop moves s d w m := by
  induction moves with
  | nil =>
    intro m
    rw [plain_loop_nil]
  | cons mv rest ih =>
    intro m
    rw [plain_loop_cons]
    exact le_trans (le_max_left _ _) (ih _)

theorem plain_loop_mono (moves : List Nat) (s : BoardState) (d : Nat) (w : Weights) :
    ∀ {x y : Score}, x ≤ y → plain_loop moves s d w x ≤ plain_loop moves s d w y := by
  induction moves with
  | nil =>
    intro x y h
    rw [plain_loop_nil, plain_loop_nil]
    exact h
  | cons mv rest ih =>
    intro x y h
    rw [plain_loop_cons, plain_loop_cons]
    exact ih (max_le_max h le_rfl)

theorem plain_loop_max (moves : List Nat) (s : BoardState) (d : Nat) (w : Weights) :
    ∀ a b : Score, plain_loop moves s d w (max a b) = max a (plain_loop moves s d w b) := by
  induction moves with
  | nil =>
    intro a b
    rw [plain_loop_nil, plain_loop_nil]
  | cons mv rest ih =>
    intro a b
    rw [plain_loop_cons, plain_loop_cons, max_assoc, ih]

theorem negamax_loop_ge (moves : List Nat) (s : BoardState) (d : Nat) (beta : Score)
    (w : Weights) : ∀ (alpha m : Score), m ≤ negamax_loop moves s d alpha beta w m := by
  induction moves with
  | nil =>
    intro alpha m
    rw [negamax_loop_nil]
  | cons mv rest ih =>
    intro alpha m
    rw [negamax_loop_cons]
    by_cases hcut : beta ≤ max alpha ((negamax (apply_move mv s) d beta.neg alpha.neg w).neg)
    · rw [if_pos hcut]
      exact le_max_left _ _
    · rw [if_neg hcut]
      exact le_trans (le_max_left _ _) (ih _ _)

/-- The Knuth-Moore fail-soft relation between the pruned result `r`
and the exact value `v` on a window `(lo, hi)`: a fail-low result
bounds `v` from above, a fail-high result bounds it from below, and a
result inside the window is exact. -/
def KMprop (r v lo hi : Score) : Prop :=
  (r ≤ lo → v ≤ r) ∧ (hi ≤ r → r ≤ v) ∧ (lo < r → r < hi → r = v)

theorem KMprop_refl (r lo hi : Score) : KMprop r r lo hi :=
  ⟨fun _ => le_rfl, fun _ => le_rfl, fun _ _ => rfl⟩

/-- Negating a search result swaps and negates the window. -/
theorem KMprop_neg {r v lo hi : Score} (h : KMprop r v lo hi) :
    KMprop r.neg v.neg hi.neg lo.neg := by
  obtain ⟨h1, h2, h3⟩ := h
  refine ⟨?_, ?_, ?_⟩
  · intro hle
    exact Score.neg_le_neg_iff.mpr (h2 (Score.neg_le_neg_iff.mp hle))
  · intro hle
    exact Score.neg_le_neg_iff.mpr (h1 (Score.neg_le_neg_iff.mp hle))
  · intro hlt1 hlt2
    exact congrArg Score.neg (h3 (Score.neg_lt_neg_iff.mp hlt2) (Score.neg_lt_neg_iff.mp hlt1))

/-- Knuth-Moore fail-soft correctness of the pruned move loop,
assuming it for every child at depth `d` on every window. -/
theorem negamax_loop_KM (s : BoardState) (d : Nat) (w : Weights) (beta : Score)
    (IH : ∀ (mv : Nat) (a b : Score), a < b →
      KMprop (negamax (apply_move mv s) d a b w) (negamax_plain (apply_move mv s) d w) a b) :
    ∀ (moves : List Nat) (alpha m : Score), alpha < beta → m ≤ alpha →
      KMprop (negamax_loop moves s d alpha beta w m) (plain_loop moves s d w m)
        alpha beta := by
  intro moves
  induction moves with
  | nil =>
    intro alpha m hab hma
    rw [negamax_loop_nil, plain_loop_nil]
    exact KMprop_refl m alpha beta
  | cons mv rest ih =>
    intro alpha m hab hma
    rw [negamax_loop_cons, plain_loop_cons]
    set sab := (negamax (apply_move mv s) d beta.neg alpha.neg w).neg with hsab_def
    set sv := (negamax_plain (apply_move mv s) d w).neg with hsv_def
    have hchild' := KMprop_neg (IH mv beta.neg alpha.neg (Score.neg_lt_neg_iff.mpr hab))
    rw [Score.neg_neg, Score.neg_neg] at hchild'
    obtain ⟨hlow, hhigh, hexact⟩ := hchild'
    rw [← hsab_def, ← hsv_def] at hlow hhigh hexact
    by_cases hcut : beta ≤ max alpha sab
    · rw [if_pos hcut]
      have hbs : beta ≤ sab := by
        rcases le_total sab alpha with h | h
        · rw [max_eq_left h] at hcut
          exact absurd hcut (not_le.mpr hab)
        · rwa [max_eq_right h] at hcut
      have hm_s : max m sab = sab :=
        max_eq_right (le_trans hma (le_of_lt (lt_of_lt_of_le hab hbs)))
      rw [hm_s]
      refine ⟨?_, ?_, ?_⟩
      · intro hle
        exact absurd (lt_of_lt_of_le hab (le_trans hbs hle)) (lt_irrefl alpha)
      · intro _
        calc sab ≤ sv := hhigh hbs
          _ ≤ max m sv := le_max_right _ _
          _ ≤ plain_loop rest s d w (max m sv) := plain_loop_ge _ _ _ _ _
      · intro _ hlt
        exact absurd (lt_of_le_of_lt hbs hlt) (lt_irrefl beta)
    · rw [if_neg hcut]
      have hab' : max alpha sab < beta := not_le.mp hcut
      have hma' : max m sab ≤ max alpha sab := max_le_max hma le_rfl
      have hinner := ih (max alpha sab) (max m sab) hab' hma'
      set q := plain_loop rest s d w m with hq_def
      have hp'' : plain_loop rest s d w (max m sab) = max sab q := by
        rw [max_comm m sab, plain_loop_max]
      have hp : plain_loop rest s d w (max m sv) = max sv q := by
        rw [max_comm m sv, plain_loop_max]
      rw [hp''] at hinner
      obtain ⟨hi1, hi2, hi3⟩ := hinner
      have hrge : max m sab ≤ negamax_loop rest s d (max alpha sab) beta w (max m sab) :=
        negamax_loop_ge _ _ _ _ _ _ _
      set r := negamax_loop rest s d (max alpha sab) beta w (max m sab) with hr_def
      rw [hp]
      refine ⟨?_, ?_, ?_⟩
      · intro hle
        have hra' : r ≤ max alpha sab := le_trans hle (le_max_left _ _)
        have hmaxle := hi1 hra'
        have hsabr : sab ≤ r := le_trans (le_max_left _ _) hmaxle
        have hqr : q ≤ r := le_trans (le_max_right _ _) hmaxle
        have hsva : sv ≤ sab := hlow (le_trans hsabr hle)
        exact max_le (le_trans hsva hsabr) hqr
      · intro hge
        have hrle := hi2 hge
        rcases le_max_iff.mp hrle with hcase | hcase
        · have : sab ≤ sv := hhigh (le_trans hge hcase)
          exact le_max_of_le_left (le_trans hcase this)
        · exact le_max_of_le_right hcase
      · intro hlo hhi
        by_cases hra' : r ≤ max alpha sab
        · have hmaxle := hi1 hra'
          have hsabr : sab ≤ r := le_trans (le_max_left _ _) hmaxle
          have hqr : q ≤ r := le_trans (le_max_right _ _) hmaxle
          have hmax_eq : max alpha sab = sab := by
            rcases le_total sab alpha with h | h
            · rw [max_eq_left h] at hra'
              exact absurd (lt_of_lt_of_le hlo hra') (lt_irrefl alpha)
            · exact max_eq_right h
          rw [hmax_eq] at hra'
          have hreq : r = sab := le_antisymm hra' hsabr
          have hsv_eq := hexact (hreq ▸ hlo) (hreq ▸ hhi)
          have hqsv : q ≤ sv := by
            rw [← hsv_eq, ← hreq]
            exact hqr
          rw [hreq, hsv_eq]
          exact (max_eq_left hqsv).symm
        · have hra2 : max alpha sab < r := not_le.mp hra'
          have hreq := hi3 hra2 hhi
          by_cases hsa : sab ≤ alpha
          · have hmq : max sab q = q := by
              rcases le_total sab q with h | h
              · exact max_eq_right h
              · rw [max_eq_left h] at hreq
                exact absurd (lt_of_lt_of_le hlo (by rw [hreq]; exact hsa)) (lt_irrefl alpha)
            have hsvq : sv ≤ q :=
              le_trans (hlow hsa) (le_trans (le_max_left sab q) (le_of_eq hmq))
            rw [hreq, hmq]
            exact (max_eq_right hsvq).symm
          · have halpha_sab : alpha < sab := not_le.mp hsa
            have hsab_beta : sab < beta :=
              lt_of_le_of_lt (hreq ▸ le_max_left sab q) hhi
            have hsv_eq := hexact halpha_sab hsab_beta
            rw [hreq, hsv_eq]

/-- Knuth-Moore fail-soft correctness of `negamax` against
`negamax_plain`, for every window, by induction on the measure
`2 * depth + (1 if the mover is stuck)`. -/
theorem negamax_KM (n : Nat) :
    ∀ (s : BoardState) (depth : Nat) (alpha beta : Score) (w : Weights),
      2 * depth + (if (get_legal_moves s).isEmpty then 1 else 0) = n →
      alpha < beta →
      KMprop (negamax s depth alpha beta w) (negamax_plain s depth w) alpha beta := by
  induction n using Nat.strong_induction_on with
  | _ n ih =>
    intro s depth alpha beta w hn hab
    by_cases hd : depth = 0
    · subst hd
      rw [negamax, negamax_plain]
      simp only [reduceIte]
      exact KMprop_refl _ _ _
    · by_cases hnm : (get_legal_moves s).isEmpty
      · by_cases hopp : (get_legal_moves (pass_move s)).isEmpty
        · rw [negamax, negamax_plain, if_neg hd, if_neg hd, dif_pos hnm, dif_pos hnm,
            dif_pos hopp, dif_pos hopp]
          exact KMprop_refl _ _ _
        · rw [negamax, negamax_plain, if_neg hd, if_neg hd, dif_pos hnm, dif_pos hnm,
            dif_neg hopp, dif_neg hopp]
          have hmeas : 2 * depth +
              (if (get_legal_moves (pass_move s)).isEmpty then 1 else 0) < n := by
            rw [if_neg hopp]
            rw [if_pos hnm] at hn
            omega
          have hrec := ih _ hmeas (pass_move s) depth beta.neg alpha.neg w rfl
            (Score.neg_lt_neg_iff.mpr hab)
          have hres := KMprop_neg hrec
          rw [Score.neg_neg, Score.neg_neg] at hres
          exact hres
      · rw [negamax, negamax_plain, if_neg hd, if_neg hd, dif_neg hnm, dif_neg hnm]
        refine negamax_loop_KM s (depth - 1) w beta ?_ (get_legal_moves s) alpha
          Score.negInf hab (Score.negInf_le alpha)
        intro mv a b hab'
        have hmeas : 2 * (depth - 1) +
            (if (get_legal_moves (apply_move mv s)).isEmpty then 1 else 0) < n := by
          rw [if_neg hnm] at hn
          by_cases hc : (get_legal_moves (apply_move mv s)).isEmpty
          · rw [if_pos hc]
            omega
          · rw [if_neg hc]
            omega
        exact ih _ hmeas (apply_move mv s) (depth - 1) a b w rfl hab'

theorem negamax_loop_isVal (s : BoardState) (d : Nat) (beta : Score) (w : Weights)
    (IH : ∀ (mv : Nat) (a b : Score), Score.isVal (negamax (apply_move mv s) d a b w)) :
    ∀ (moves : List Nat) (alpha m : Score), Score.isVal m →
      Score.isVal (negamax_loop moves s d alpha beta w m) := by
  intro moves
  induction moves with
  | nil =>
    intro alpha m hm
    rw [negamax_loop_nil]
    exact hm
  | cons mv rest ih =>
    intro alpha m hm
    rw [negamax_loop_cons]
    by_cases hcut : beta ≤ max alpha ((negamax (apply_move mv s) d beta.neg alpha.neg w).neg)
    · rw [if_pos hcut]
      exact Score.isVal_max hm (Score.isVal_neg (IH mv _ _))
    · rw [if_neg hcut]
      exact ih _ _ (Score.isVal_max hm (Score.isVal_neg (IH mv _ _)))

/-- `negamax` always returns a finite score. -/
theorem negamax_isVal (n : Nat) :
    ∀ (s : BoardState) (depth : Nat) (alpha beta : Score) (w : Weights),
      2 * depth + (if (get_legal_moves s).isEmpty then 1 else 0) = n →
      Score.isVal (negamax s depth alpha beta w) := by
  induction n using Nat.strong_induction_on with
  | _ n ih =>
    intro s depth alpha beta w hn
    by_cases hd : depth = 0
    · subst hd
      rw [negamax]
      simp only [reduceIte]
      exact ⟨_, rfl⟩
    · by_cases hnm : (get_legal_moves s).isEmpty
      · by_cases hopp : (get_legal_moves (pass_move s)).isEmpty
        · rw [negamax, if_neg hd, dif_pos hnm, dif_pos hopp]
          exact ⟨_, rfl⟩
        · rw [negamax, if_neg hd, dif_pos hnm, dif_neg hopp]
          have hmeas : 2 * depth +
              (if (get_legal_moves (pass_move s)).isEmpty then 1 else 0) < n := by
            rw [if_neg hopp]
            rw [if_pos hnm] at hn
            omega
          exact Score.isVal_neg (ih _ hmeas (pass_move s) depth beta.neg alpha.neg w rfl)
      · rw [negamax, if_neg hd, dif_neg hnm]
        have hchild : ∀ (mv : Nat) (a b : Score),
            Score.isVal (negamax (apply_move mv s) (depth - 1) a b w) := by
          intro mv a b
          have hmeas : 2 * (depth - 1) +
              (if (get_legal_moves (apply_move mv s)).isEmpty then 1 else 0) < n := by
            rw [if_neg hnm] at hn
            by_cases hc : (get_legal_moves (apply_move mv s)).isEmpty
            · rw [if_pos hc]
              omega
            · rw [if_neg hc]
              omega
          exact ih _ hmeas (apply_move mv s) (depth - 1) a b w rfl
        rcases hmoves : get_legal_moves s with _ | ⟨mv, rest⟩
        · rw [hmoves] at hnm
          exact absurd rfl hnm
        · rw [negamax_loop_cons]
          by_cases hcut : beta ≤ max alpha
              ((negamax (apply_move mv s) (depth - 1) beta.neg alpha.neg w).neg)
          · rw [if_pos hcut, Score.max_negInf]
            exact Score.isVal_neg (hchild mv _ _)
          · rw [if_neg hcut, Score.max_negInf]
            exact negamax_loop_isVal s (depth - 1) beta w hchild rest _ _
              (Score.isVal_neg (hchild mv _ _))

/-- C5: with the full window (alpha = -infinity, beta = +infinity),
alpha-beta `negamax` returns exactly the value of the identical
recursion with the cutoff removed: the pruning changes no returned
root value. -/
theorem negamax_full_window_eq_plain (s : BoardState) (depth : Nat) (w : Weights) :
    negamax s depth Score.negInf Score.posInf w = negamax_plain s depth w := by
  have hKM := negamax_KM (2 * depth + (if (get_legal_moves s).isEmpty then 1 else 0)) s
    depth Score.negInf Score.posInf w rfl Score.negInf_lt_posInf
  obtain ⟨q, hq⟩ := negamax_isVal
    (2 * depth + (if (get_legal_moves s).isEmpty then 1 else 0)) s depth Score.negInf
    Score.posInf w rfl
  refine hKM.2.2 ?_ ?_
  · rw [hq]
    exact Score.negInf_lt_val q
  · rw [hq]
    exact Score.val_lt_posInf q

/-! ## strategy_mcts.py: the tree search -/

/-- `_Node` from strategy_mcts.py.  The Python node stores a parent
back-reference used only by `backpropagate`; in this functional
embedding the tree is rebuilt along the selection path, which applies
the same visit/value updates to the same nodes. -/
inductive MCTSNode where
  | node (board_state : BoardState) (move : Option Nat) (children : List MCTSNode)
      (untried_moves : List (Option Nat)) (visits : Nat) (value : ℚ)
deriving Repr

def MCTSNode.board_state : MCTSNode → BoardState
  | node bs _ _ _ _ _ => bs

def MCTSNode.move : MCTSNode → Option Nat
  | node _ mv _ _ _ _ => mv

def MCTSNode.children : MCTSNode → List MCTSNode
  | node _ _ cs _ _ _ => cs

def MCTSNode.untried_moves : MCTSNode → List (Option Nat)
  | node _ _ _ um _ _ => um

def MCTSNode.visits : MCTSNode → Nat
  | node _ _ _ _ v _ => v

def MCTSNode.value : MCTSNode → ℚ
  | node _ _ _ _ _ v => v

/-- `_get_moves_including_pass` from strategy_mcts.py. -/
def moves_including_pass (board_state : BoardState) : List (Option Nat) :=
  let moves := get_legal_moves board_state
  if moves = [] then [none] else moves.map some

/-- `_is_game_over` from strategy_mcts.py. -/
def is_game_over (board_state : BoardState) : Bool :=
  if get_legal_moves board_state = [] then
    decide ((get_legal_moves (pass_move board_state)).length = 0)
  else false

/-- Applying an optional move: `make_move` as called from MCTS, where
the move is always drawn from `get_legal_moves` (or is a forced pass),
so `make_move` succeeds and returns exactly this state. -/
def apply_move_opt (mv : Option Nat) (board_state : BoardState) : BoardState :=
  match mv with
  | none => pass_move board_state
  | some m => apply_move m board_state

/-- The loop of `_Node.best_child`: return the first never-visited
child; otherwise the first child with the strictly largest UCT score.
The transcendental exploration term `c * sqrt(log(parentVisits)
/ childVisits)` is abstracted as the function `explore`; the claims
proved below hold for every such function. -/
def best_child_loop (explore : Nat → Nat → ℚ) (parent_visits : Nat) :
    List MCTSNode → Nat → Option (Nat × ℚ) → Option Nat
  | [], _, best =>
    match best with
    | some (i, _) => some i
    | none => none
  | c :: rest, idx, best =>
    if c.visits = 0 then some idx
    else
      let score := c.value / (c.visits : ℚ) + explore parent_visits c.visits
      match best with
      | none => best_child_loop explore parent_visits rest (idx + 1) (some (idx, score))
      | some (bi, bs) =>
        if bs < score then best_child_loop explore parent_visits rest (idx + 1) (some (idx, score))
        else best_child_loop explore parent_visits rest (idx + 1) (some (bi, bs))

/-- Index of the best child (`_Node.best_child`). -/
def best_child_idx (explore : Nat → Nat → ℚ) (parent_visits : Nat)
    (children : List MCTSNode) : Nat :=
  (best_child_loop explore parent_visits children 0 none).getD 0

theorem best_child_loop_lt (explore : Nat → Nat → ℚ) (pv : Nat) :
    ∀ (l : List MCTSNode) (idx : Nat) (best : Option (Nat × ℚ)),
      (∀ i sc, best = some (i, sc) → i < idx) → (best = none → l ≠ []) →
      ∃ j, best_child_loop explore pv l idx best = some j ∧ j < idx + l.length := by
  intro l
  induction l with
  | nil =>
    intro idx best hbest hne
    match best with
    | some (i, sc) =>
      exact ⟨i, rfl, by have := hbest i sc rfl; omega⟩
    | none =>
      exact absurd rfl (hne rfl)
  | cons c rest ih =>
    intro idx best hbest hne
    rw [best_child_loop]
    by_cases hv : c.visits = 0
    · rw [if_pos hv]
      exact ⟨idx, rfl, by simp⟩
    · rw [if_neg hv]
      match best with
      | none =>
        obtain ⟨j, hj, hlt⟩ := ih (idx + 1) (some (idx, _))
          (fun i sc h => by injection h with h1; injection h1 with h2 h3; omega)
          (fun h => absurd h (by simp))
        exact ⟨j, hj, by simpa [Nat.add_comm, Nat.add_left_comm] using hlt⟩
      | some (bi, bs) =>
        have hbi : bi < idx := hbest bi bs rfl
        by_cases hsc : bs < c.value / (c.visits : ℚ) + explore pv c.visits
        · dsimp only
          rw [if_pos hsc]
          obtain ⟨j, hj, hlt⟩ := ih (idx + 1) (some (idx, _))
            (fun i sc h => by injection h with h1; injection h1 with h2 h3; omega)
            (fun h => absurd h (by simp))
          exact ⟨j, hj, by simpa [Nat.add_comm, Nat.add_left_comm] using hlt⟩
        · dsimp only
          rw [if_neg hsc]
          obtain ⟨j, hj, hlt⟩ := ih (idx + 1) (some (bi, bs))
            (fun i sc h => by injection h with h1; injection h1 with h2 h3; omega)
            (fun h => absurd h (by simp))
          exact ⟨j, hj, by simpa [Nat.add_comm, Nat.add_left_comm] using hlt⟩

theorem best_child_idx_lt (explore : Nat → Nat → ℚ) (pv : Nat) {children : List MCTSNode}
    (h : children ≠ []) : best_child_idx explore pv children < children.length := by
  obtain ⟨j, hj, hlt⟩ := best_child_loop_lt explore pv children 0 none
    (fun i sc h => by simp at h) (fun _ => h)
  rw [best_child_idx, hj]
  simpa using hlt

instance (l : List MCTSNode) : Decidable (l = []) :=
  match l with
  | [] => isTrue rfl
  | _ :: _ => isFalse (by simp)

/-- One MCTS iteration (the body of the `for` loop in `choose_move`):
selection down the fully-expanded prefix of the tree, expansion of one
untried move (unless the node is game-terminal), simulation from the
resulting state, and backpropagation of the result along the selection
path (realized here by rebuilding the path with updated visit counts
and values).  Returns the updated tree, the simulation result and the
next random-stream index. -/
def mcts_iterate (explore : Nat → Nat → ℚ) (root_player : Player) (rng : Nat → Nat)
    (t : MCTSNode) (k : Nat) : MCTSNode × ℚ × Nat :=
  match t with
  | MCTSNode.node bs mv children untried visits value =>
    if hsel : untried = [] ∧ children ≠ [] then
      -- selection: descend into the UCT-best child
      let i := best_child_idx explore visits children
      have hi : i < children.length := best_child_idx_lt explore visits hsel.2
      let res := mcts_iterate explore root_player rng (children.get ⟨i, hi⟩) k
      (MCTSNode.node bs mv (children.set i res.1) untried (visits + 1) (value + res.2.1),
        res.2.1, res.2.2)
    else if is_game_over bs then
      -- terminal: no expansion; simulate from this node and update it
      let res := simulate bs root_player rng k 0
      (MCTSNode.node bs mv children untried (visits + 1) (value + res.1), res.1, res.2)
    else if hu : untried ≠ [] then
      -- expansion: pop the last untried move, create the child, simulate
      let m := untried.getLast hu
      let new_state := apply_move_opt m bs
      let res := simulate new_state root_player rng k 0
      let child := MCTSNode.node new_state m [] (moves_including_pass new_state) 1 res.1
      (MCTSNode.node bs mv (children ++ [child]) untried.dropLast (visits + 1)
        (value + res.1), res.1, res.2)
    else
      -- unreachable in the Python code: a non-terminal node with no
      -- untried moves always has children and is caught by selection
      let res := simulate bs root_player rng k 0
      (MCTSNode.node bs mv children untried (visits + 1) (value + res.1), res.1, res.2)
termination_by sizeOf t
decreasing_by
  rename_i bs mv children untried visits value
  have h1 := List.sizeOf_lt_of_mem (List.get_mem children (best_child_idx explore visits children) hi)
  simp only [MCTSNode.node.sizeOf_spec]
  omega

/-- The exploration loop of `choose_move` in strategy_mcts.py:
`explorations` iterations threading the tree and the random-stream
index. -/
def mcts_rounds (explore : Nat → Nat → ℚ) (root_player : Player) (rng : Nat → Nat) :
    Nat → MCTSNode × Nat → MCTSNode × Nat
  | 0, st => st
  | n + 1, st =>
    let res := mcts_iterate explore root_player rng st.1 st.2
    mcts_rounds explore root_player rng n (res.1, res.2.2)

theorem mcts_rounds_zero (e : Nat → Nat → ℚ) (rp : Player) (rng : Nat → Nat)
    (st : MCTSNode × Nat) : mcts_rounds e rp rng 0 st = st := rfl

theorem mcts_rounds_succ (e : Nat → Nat → ℚ) (rp : Player) (rng : Nat → Nat) (n : Nat)
    (st : MCTSNode × Nat) :
    mcts_rounds e rp rng (n + 1) st =
      mcts_rounds e rp rng n
        ((mcts_iterate e rp rng st.1 st.2).1, (mcts_iterate e rp rng st.1 st.2).2.2) := rfl

/-- `max(root.children, key=lambda c: c.visits, default=None)`: the
first child with the largest visit count, `none` for an empty list. -/
def most_visited : List MCTSNode → Option MCTSNode
  | [] => none
  | c :: rest =>
    match most_visited rest with
    | none => some c
    | some b => if b.visits > c.visits then some b else some c

/-- `choose_move` from strategy_mcts.py (MCTS). -/
def choose_move_mcts (board_state : BoardState) (explorations : Nat) (rng : Nat → Nat)
    (explore : Nat → Nat → ℚ) : Option Nat :=
  if get_legal_moves board_state = [] then none
  else
    let root := MCTSNode.node board_state none [] (moves_including_pass board_state) 0 0
    let res := mcts_rounds explore board_state.next_player rng explorations (root, 0)
    match most_visited res.1.children with
    | some best_child => best_child.move
    | none => none

/-! ## Claim C6: sentinel behavior of MCTS `choose_move` -/

theorem mcts_iterate_move (e : Nat → Nat → ℚ) (rp : Player) (rng : Nat → Nat)
    (t : MCTSNode) (k : Nat) : (mcts_iterate e rp rng t k).1.move = t.move := by
  cases t with
  | node bs mv children untried visits value =>
    rw [mcts_iterate]
    split_ifs <;> rfl

theorem mcts_iterate_children_length (e : Nat → Nat → ℚ) (rp : Player) (rng : Nat → Nat)
    (t : MCTSNode) (k : Nat) :
    t.children.length ≤ (mcts_iterate e rp rng t k).1.children.length := by
  cases t with
  | node bs mv children untried visits value =>
    rw [mcts_iterate]
    split_ifs <;> simp [MCTSNode.children, List.length_set]

/-- Every child carries a `some` move and every untried move is a
`some` (true of every node the search builds below a root that has a
legal move). -/
def NodeOk (t : MCTSNode) : Prop :=
  (∀ c ∈ t.children, c.move.isSome) ∧ (∀ mv ∈ t.untried_moves, mv.isSome)

theorem mcts_iterate_ok {e : Nat → Nat → ℚ} {rp : Player} {rng : Nat → Nat}
    {t : MCTSNode} {k : Nat} (h : NodeOk t) : NodeOk (mcts_iterate e rp rng t k).1 := by
  obtain ⟨hch, hun⟩ := h
  cases t with
  | node bs mv children untried visits value =>
    rw [mcts_iterate]
    split_ifs with h1 h2 h3
    · refine ⟨?_, hun⟩
      intro c hc
      rcases List.mem_or_eq_of_mem_set hc with hc | hc
      · exact hch c hc
      · rw [hc, mcts_iterate_move]
        exact hch _ (List.get_mem _ _ _)
    · exact ⟨hch, hun⟩
    · constructor
      · intro c hc
        rcases List.mem_append.mp hc with hc | hc
        · exact hch c hc
        · rw [List.mem_singleton.mp hc]
          exact hun _ (List.getLast_mem h3)
      · intro mv2 hmv2
        exact hun mv2 (List.dropLast_subset untried hmv2)
    · exact ⟨hch, hun⟩

theorem mcts_iterate_fresh_root {s : BoardState} (hlegal : get_legal_moves s ≠ [])
    (e : Nat → Nat → ℚ) (rp : Player) (rng : Nat → Nat) (k : Nat) :
    (mcts_iterate e rp rng (MCTSNode.node s none [] (moves_including_pass s) 0 0) k).1.children
      ≠ [] := by
  have hu : moves_including_pass s ≠ [] := by
    unfold moves_including_pass
    rw [if_neg hlegal]
    simp [hlegal]
  rw [mcts_iterate]
  rw [dif_neg (by simp : ¬ (moves_including_pass s = [] ∧ ([] : List MCTSNode) ≠ []))]
  have hgo : is_game_over s = false := by
    unfold is_game_over
    rw [if_neg hlegal]
  rw [if_neg (by simp [hgo])]
  rw [dif_pos hu]
  simp [MCTSNode.children]

theorem mcts_rounds_ok (e : Nat → Nat → ℚ) (rp : Player) (rng : Nat → Nat) :
    ∀ (n : Nat) (t : MCTSNode) (k : Nat), NodeOk t → t.children ≠ [] →
      NodeOk (mcts_rounds e rp rng n (t, k)).1 ∧
        (mcts_rounds e rp rng n (t, k)).1.children ≠ [] := by
  intro n
  induction n with
  | zero =>
    intro t k hok hne
    exact ⟨hok, hne⟩
  | succ n ih =>
    intro t k hok hne
    rw [mcts_rounds_succ]
    refine ih _ _ (mcts_iterate_ok hok) ?_
    apply List.ne_nil_of_length_pos
    calc 0 < t.children.length := List.length_pos.mpr hne
      _ ≤ _ := mcts_iterate_children_length e rp rng t k

theorem most_visited_mem : ∀ {l : List MCTSNode} {c : MCTSNode},
    most_visited l = some c → c ∈ l := by
  intro l
  induction l with
  | nil =>
    intro c hc
    exact absurd hc (by simp [most_visited])
  | cons x rest ih =>
    intro c hc
    rw [most_visited] at hc
    rcases hrest : most_visited rest with _ | b
    · rw [hrest] at hc
      simp at hc
      rw [← hc]
      exact List.mem_cons_self _ _
    · rw [hrest] at hc
      dsimp only at hc
      by_cases hv : b.visits > x.visits
      · rw [if_pos hv] at hc
        simp at hc
        rw [← hc]
        exact List.mem_cons_of_mem _ (ih hrest)
      · rw [if_neg hv] at hc
        simp at hc
        rw [← hc]
        exact List.mem_cons_self _ _

theorem most_visited_of_ne_nil {l : List MCTSNode} (h : l ≠ []) :
    ∃ c, most_visited l = some c := by
  cases l with
  | nil => exact absurd rfl h
  | cons x rest =>
    rw [most_visited]
    rcases hrest : most_visited rest with _ | b
    · exact ⟨x, rfl⟩
    · dsimp only
      by_cases hv : b.visits > x.visits
      · rw [if_pos hv]
        exact ⟨b, rfl⟩
      · rw [if_neg hv]
        exact ⟨x, rfl⟩

/-- C6 (amended): MCTS `choose_move` returns the no-move sentinel iff
the root has no legal move or the exploration budget is zero.  The
minimum budget for a non-sentinel answer on a state with a legal move
is 1: with a zero budget the loop body never runs, the root has no
children, and `max(..., default=None)` yields the sentinel even though
legal moves exist. -/
theorem mcts_choose_move_none_iff (s : BoardState) (explorations : Nat) (rng : Nat → Nat)
    (explore : Nat → Nat → ℚ) :
    choose_move_mcts s explorations rng explore = none ↔
      (get_legal_moves s = [] ∨ explorations = 0) := by
  unfold choose_move_mcts
  by_cases hlegal : get_legal_moves s = []
  · rw [if_pos hlegal]
    simp [hlegal]
  · rw [if_neg hlegal]
    dsimp only
    cases explorations with
    | zero =>
      rw [mcts_rounds_zero]
      simp [most_visited, MCTSNode.children]
    | succ n =>
      have hok : NodeOk (MCTSNode.node s none [] (moves_including_pass s) 0 0) := by
        constructor
        · intro c hc
          exact absurd hc (by simp [MCTSNode.children])
        · intro mv hmv
          rw [MCTSNode.untried_moves] at hmv
          unfold moves_including_pass at hmv
          rw [if_neg hlegal] at hmv
          obtain ⟨m, -, rfl⟩ := List.mem_map.mp hmv
          rfl
      rw [mcts_rounds_succ]
      have hres := mcts_rounds_ok explore s.next_player rng n
        (mcts_iterate explore s.next_player rng
          (MCTSNode.node s none [] (moves_including_pass s) 0 0) 0).1
        (mcts_iterate explore s.next_player rng
          (MCTSNode.node s none [] (moves_including_pass s) 0 0) 0).2.2
        (mcts_iterate_ok hok) (mcts_iterate_fresh_root hlegal explore s.next_player rng 0)
      obtain ⟨⟨hchok, -⟩, hne⟩ := hres
      obtain ⟨c, hc⟩ := most_visited_of_ne_nil hne
      rw [hc]
      dsimp only
      have hcmem := most_visited_mem hc
      have hcsome := hchok c hcmem
      rw [Option.isSome_iff_exists] at hcsome
      obtain ⟨m, hm⟩ := hcsome
      rw [hm]
      simp [hlegal]

/-- Counterexample to C6 as stated: from the start (which has legal
moves) a zero exploration budget yields the sentinel, because the MCTS
loop body is never executed and the root never acquires children. -/
theorem mcts_zero_budget_counterexample :
    get_legal_moves start_state ≠ [] ∧
    choose_move_mcts start_state 0 (fun _ => 0) (fun _ _ => 0) = none := by
  refine ⟨by decide, ?_⟩
  rw [choose_move_mcts, if_neg (by decide)]
  dsimp only
  rw [mcts_rounds_zero]
  rfl
